import Mathlib

/-!
Verification of the two-layer output validator and change-detection utilities
of the `ai-metadata-enricher` repository, as a shallow embedding in Lean.

The embedding mirrors, definition for definition:
* `src/domain/validation/structural_validator.py` (`_parse_yaml_subset`,
  `validate_structural`),
* `src/domain/validation/semantic_validator.py` (`validate_semantic`,
  the rule tables compiled pattern-by-pattern to executable matchers),
* `src/domain/validation/validator.py` (`validate_output`),
* `src/domain/change_detection/decision.py` (`decide_reprocess_or_skip`),
* `src/domain/change_detection/normalizer.py` (`normalize_asset` and helpers),
* `src/domain/change_detection/hasher.py` (`compute_asset_hash`, canonical
  JSON serialization, SHA-256 over byte lists, hex rendering).

Python strings are Lean `String`s; `None`-able inputs are `Option`s; Python
exceptions are `Except`; Python dicts are insertion-ordered association lists
with in-place overwrite on duplicate insertion (matching CPython semantics).
-/

set_option maxHeartbeats 1000000

namespace Enricher

/-! ### Python string primitives -/

/-- The whitespace characters stripped by Python's `str.strip()` / `lstrip()`
(`' '`, `'\t'`, `'\r'`, `'\n'`, `'\x0b'`, `'\x0c'`). -/
def pyIsSpace (c : Char) : Bool :=
  c = ' ' || c = '\t' || c = '\r' || c = '\n' || c = '\x0b' || c = '\x0c'

/-- Python `str.lstrip()`. -/
def pyLstrip (s : String) : String :=
  ⟨s.data.dropWhile pyIsSpace⟩

/-- Python `str.rstrip()`. -/
def pyRstrip (s : String) : String :=
  ⟨(s.data.reverse.dropWhile pyIsSpace).reverse⟩

/-- Python `str.strip()`. -/
def pyStrip (s : String) : String :=
  pyLstrip (pyRstrip s)

/-- Python `str.startswith(pre)`. -/
def sStartsWith (s pre : String) : Bool :=
  pre.data.isPrefixOf s.data

/-- Python `str.endswith(suf)`. -/
def sEndsWith (s suf : String) : Bool :=
  suf.data.reverse.isPrefixOf s.data.reverse

/-- Whether a character occurs in the string (Python `c in s`). -/
def sContainsChar (s : String) (c : Char) : Bool :=
  s.data.contains c

/-- Python `str.lower()` (ASCII case mapping, as used by all rule tables). -/
def lowerStr (s : String) : String :=
  ⟨s.data.map Char.toLower⟩

/-- Python `str.splitlines()` worker over the character list.  Recognizes
`\n`, `\r\n` and `\r` as line boundaries; a trailing boundary produces no
final empty line. -/
def splitLinesAux : List Char → List Char → List (List Char)
  | [], acc => if acc.isEmpty then [] else [acc.reverse]
  | '\r' :: '\n' :: rest, acc => acc.reverse :: splitLinesAux rest []
  | '\n' :: rest, acc => acc.reverse :: splitLinesAux rest []
  | '\r' :: rest, acc => acc.reverse :: splitLinesAux rest []
  | c :: rest, acc => splitLinesAux rest (c :: acc)

/-- Python `str.splitlines()`. -/
def splitLines (s : String) : List String :=
  (splitLinesAux s.data []).map (fun l => ⟨l⟩)

/-- `ln.rstrip("\r\n")`: strip only carriage returns and newlines from the
right end (a no-op after `splitlines`, kept for faithfulness). -/
def rstripCRLF (s : String) : String :=
  ⟨(s.data.reverse.dropWhile (fun c => c = '\r' || c = '\n')).reverse⟩

/-! ### Validation data model (`result.py`) -/

/-- `ValidationResult` from `src/domain/validation/result.py`. -/
structure ValidationResult where
  is_valid : Bool
  structural_errors : List String
  semantic_errors : List String
  deriving DecidableEq, Repr

/-- `ValidationResult.valid()`. -/
def ValidationResult.valid : ValidationResult :=
  ⟨true, [], []⟩

/-- `ValidationResult.invalid(structural=errs)`. -/
def ValidationResult.invalidStructural (errs : List String) : ValidationResult :=
  ⟨false, errs, []⟩

/-- `ValidationResult.invalid(semantic=errs)`. -/
def ValidationResult.invalidSemantic (errs : List String) : ValidationResult :=
  ⟨false, [], errs⟩

/-- A parsed field value: the Python parser stores a string, a list of
strings, or `None` (the null/malformed marker for an array block that
collected zero items). -/
inductive PVal where
  | str (s : String)
  | arr (items : List String)
  | pnull
  deriving DecidableEq, Repr

/-- The parsed document: a Python dict modeled as an insertion-ordered
association list with unique keys. -/
abbrev ParsedDoc := List (String × PVal)

/-- Python dict assignment `d[k] = v`: overwrite in place if the key exists,
otherwise append. -/
def pyDictInsert (d : ParsedDoc) (k : String) (v : PVal) : ParsedDoc :=
  if d.any (fun p => p.1 = k) then
    d.map (fun p => if p.1 = k then (k, v) else p)
  else
    d ++ [(k, v)]

/-- Python `k in d`. -/
def containsKey (d : ParsedDoc) (k : String) : Bool :=
  d.any (fun p => p.1 = k)

/-- Python `d.get(k)` / `d[k]`. -/
def pyGetP (d : ParsedDoc) (k : String) : Option PVal :=
  (d.find? (fun p => p.1 = k)).map (fun p => p.2)

/-! ### Field catalog (`structural_validator.py`, module constants) -/

def EXPECTED_ORDER : List String :=
  ["suggested_description", "confidence", "used_sources", "warnings"]

def REQUIRED_FIELDS : List String :=
  ["suggested_description", "confidence", "used_sources"]

def OPTIONAL_FIELDS : List String :=
  ["warnings"]

/-! ### The constrained-YAML parser (`_parse_yaml_subset`) -/

/-- `key, sep, rest = ln.partition(":")` followed by `key.strip()`:
the field name of a top-level line. -/
def keyOf (ln : String) : String :=
  pyStrip ⟨ln.data.takeWhile (fun c => c ≠ ':')⟩

/-- The trimmed raw value of a top-level line (the part after the first
colon, stripped). -/
def valOf (ln : String) : String :=
  pyStrip ⟨(ln.data.dropWhile (fun c => c ≠ ':')).tail⟩

/-- Strip one matching outer pair of double or single quotes, as the scalar
branch of `_parse_yaml_subset` does. -/
def stripQuotes (v : String) : String :=
  if (sStartsWith v "\"" && sEndsWith v "\"")
      || (sStartsWith v ⟨[Char.ofNat 39]⟩ && sEndsWith v ⟨[Char.ofNat 39]⟩) then
    ⟨(v.data.drop 1).dropLast⟩
  else v

/-- The array-block look-ahead of `_parse_yaml_subset` (the inner `while`
loop): returns the collected items, the recorded defects, and the remaining
lines (beginning with the first line matching neither item shape). -/
def collectItems : List String → List String × List String × List String
  | [] => ([], [], [])
  | x :: xs =>
    let st := pyLstrip x
    if sStartsWith st "-" && !sStartsWith st "- " then
      let r := collectItems xs
      (r.1, ("Invalid array item format: '" ++ x ++ "'") :: r.2.1, r.2.2)
    else if sStartsWith st "- " then
      let r := collectItems xs
      (pyStrip ⟨st.data.drop 2⟩ :: r.1, r.2.1, r.2.2)
    else ([], [], x :: xs)

theorem collectItems_rest_length : ∀ ls : List String,
    (collectItems ls).2.2.length ≤ ls.length := by
  intro ls
  induction ls with
  | nil => simp [collectItems]
  | cons x xs ih =>
    simp only [collectItems]
    split
    · exact Nat.le_succ_of_le ih
    · split
      · exact Nat.le_succ_of_le ih
      · exact Nat.le_refl _

/-- The main `while i < n` loop of `_parse_yaml_subset`, accumulating the
parsed dict and the defect list.  The loop consumes at least one line per
iteration, so running it with the line count as (structural) fuel is exact;
the fuel-exhausted branch is unreachable. -/
def parseGoF : Nat → List String → ParsedDoc → List String → ParsedDoc × List String
  | _, [], parsed, errs => (parsed, errs)
  | 0, _ :: _, parsed, errs => (parsed, errs)
  | fuel + 1, ln :: rest, parsed, errs =>
    if sStartsWith ln " " || !sContainsChar ln ':' then
      parseGoF fuel rest parsed (errs ++ ["Unexpected line format: '" ++ ln ++ "'"])
    else
      let key := keyOf ln
      let value := valOf ln
      let errs1 := errs ++ (if containsKey parsed key then ["Duplicate key '" ++ key ++ "'"] else [])
      if value = "[]" then
        parseGoF fuel rest (pyDictInsert parsed key (PVal.arr [])) errs1
      else if value = "" then
        let c := collectItems rest
        parseGoF fuel c.2.2
          (pyDictInsert parsed key (if c.1.isEmpty then PVal.pnull else PVal.arr c.1))
          (errs1 ++ c.2.1)
      else
        parseGoF fuel rest (pyDictInsert parsed key (PVal.str (stripQuotes value))) errs1

/-- The parser loop started with exactly enough fuel. -/
def parseGo (lines : List String) (parsed : ParsedDoc) (errs : List String) :
    ParsedDoc × List String :=
  parseGoF lines.length lines parsed errs

/-- The non-blank, `\r\n`-right-stripped lines the parser (and the order
reconstruction) work on. -/
def linesNB (s : String) : List String :=
  ((splitLines s).map rstripCRLF).filter (fun ln => pyStrip ln ≠ "")

/-- The one-shot comment defect (`Comments are not allowed in YAML output`). -/
def commentErrs (lines : List String) : List String :=
  if lines.any (fun ln => sStartsWith (pyStrip ln) "#") then
    ["Comments are not allowed in YAML output"]
  else []

/-- `_parse_yaml_subset` on the prepared line list. -/
def parseLines (lines : List String) : ParsedDoc × List String :=
  parseGo lines [] (commentErrs lines)

/-- `_parse_yaml_subset(yaml_text)` for a non-`None` string input. -/
def parseS (s : String) : ParsedDoc × List String :=
  parseLines (linesNB s)

/-- `_parse_yaml_subset` on an optional input: `None` yields
`({}, ["Input is None"])` without touching the text. -/
def parseOpt : Option String → ParsedDoc × List String
  | none => ([], ["Input is None"])
  | some s => parseS s

/-! ### Structural validator (`validate_structural`) -/

/-- Per-index checks of `used_sources` elements.  Parser-produced elements
are always strings, so only the blank check can fire. -/
def usedSourcesItemErrs : Nat → List String → List String
  | _, [] => []
  | i, s :: rest =>
    (if pyStrip s = "" then ["used_sources[" ++ toString i ++ "] must be a non-empty string"] else [])
      ++ usedSourcesItemErrs (i + 1) rest

/-- The type-check block of `validate_structural`. -/
def typeErrs (parsed : ParsedDoc) : List String :=
  (match pyGetP parsed "suggested_description" with
    | some (PVal.str _) => []
    | none => []
    | some _ => ["Field 'suggested_description' must be a string"])
  ++ (match pyGetP parsed "confidence" with
    | some (PVal.str _) => []
    | none => []
    | some _ => ["Field 'confidence' must be a string"])
  ++ (match pyGetP parsed "used_sources" with
    | none => []
    | some (PVal.arr items) =>
      (if items.length = 0 then ["Field 'used_sources' must contain at least one item"] else [])
        ++ usedSourcesItemErrs 0 items
    | some _ => ["Field 'used_sources' must be a non-empty array"])
  ++ (match pyGetP parsed "warnings" with
    | none => []
    | some (PVal.arr _) => []
    -- Parser-produced `warnings` elements are always strings, so the
    -- per-index string check of `validate_structural` can never fire.
    | some _ => ["Field 'warnings' must be an array when present"])

/-- Defects recorded by the order-reconstruction loop for lines that are
neither top-level key lines, nor array items, nor comments. -/
def orderPassErrs (lines : List String) : List String :=
  lines.filterMap (fun ln =>
    if sStartsWith ln " " || !sContainsChar ln ':' then
      if sStartsWith (pyLstrip ln) "- " then none
      else if !sStartsWith (pyLstrip ln) "- " && !sStartsWith (pyStrip ln) "#" then
        some ("Unexpected non-key line: '" ++ ln ++ "'")
      else none
    else none)

/-- `seen_order`: keys of the raw top-level key-shaped lines, in order. -/
def seenOrder (lines : List String) : List String :=
  lines.filterMap (fun ln =>
    if sStartsWith ln " " || !sContainsChar ln ':' then none
    else some (keyOf ln))

def orderErrMsg : String :=
  "Field order must be: suggested_description, confidence, used_sources, warnings"

/-- The accumulated structural error list, given the parse result and the
prepared non-blank lines. -/
def structuralErrsOf (pr : ParsedDoc × List String) (nb : List String) : List String :=
  let parsed := pr.1
  pr.2
  ++ parsed.filterMap (fun p =>
    if !REQUIRED_FIELDS.contains p.1 && !OPTIONAL_FIELDS.contains p.1 then
      some ("Unknown field '" ++ p.1 ++ "' not permitted by contract")
    else none)
  ++ REQUIRED_FIELDS.filterMap (fun k =>
    if !containsKey parsed k then some ("Missing required field '" ++ k ++ "'") else none)
  ++ typeErrs parsed
  ++ orderPassErrs nb
  ++ (if seenOrder nb ≠ EXPECTED_ORDER.filter (fun k => containsKey parsed k) then
      [orderErrMsg] else [])

/-- `validate_structural` restricted to a prepared line list. -/
def validateStructuralLines (nb : List String) : ValidationResult :=
  let errs := structuralErrsOf (parseLines nb) nb
  if errs.isEmpty then ValidationResult.valid else ValidationResult.invalidStructural errs

/-- `validate_structural(yaml_text)` for a non-`None` string input. -/
def validateStructural (s : String) : ValidationResult :=
  validateStructuralLines (linesNB s)

/-- Python exceptions that can escape `validate_structural`. -/
inductive PyExc
  | attributeError
  deriving DecidableEq, Repr

/-- `yaml_text.splitlines()` on an optional input: calling a method on
`None` raises `AttributeError`. -/
def pySplitlinesOpt : Option String → Except PyExc (List String)
  | none => .error .attributeError
  | some s => .ok (splitLines s)

/-- `validate_structural` on an optional input: the parser maps `None` to
the defect `"Input is None"`, but the order-reconstruction step then calls
`splitlines` on the raw input and raises on `None`. -/
def validateStructuralE (input : Option String) : Except PyExc ValidationResult := do
  let pr := parseOpt input
  let raw ← pySplitlinesOpt input
  let nb := (raw.map rstripCRLF).filter (fun ln => pyStrip ln ≠ "")
  let errs := structuralErrsOf pr nb
  return if errs.isEmpty then ValidationResult.valid else ValidationResult.invalidStructural errs

/-! ### Semantic rule tables (`semantic_validator.py`), compiled to
executable matchers.  Each regular expression of the source is translated
directly: `\b` is the word/non-word boundary with `\w = [A-Za-z0-9_]`
(ASCII reading), `re.IGNORECASE` is handled by lowercasing both sides,
`\s` is the Python whitespace class. -/

def isWordChar (c : Char) : Bool :=
  c.isAlphanum || c = '_'

/-- Match a `\b t₁ \s+ t₂ … \s+ tₙ \b` pattern anchored at the start of
`hs` (the leading boundary is checked by the caller). -/
def matchTokensFrom : List (List Char) → List Char → Bool
  | [], _ => true
  | t :: ts, hs =>
    t.isPrefixOf hs &&
      (let rest := hs.drop t.length
       match ts with
       | [] =>
         match rest with
         | [] => true
         | c :: _ => !isWordChar c
       | _ :: _ =>
         let sp := rest.takeWhile pyIsSpace
         !sp.isEmpty && matchTokensFrom ts (rest.dropWhile pyIsSpace))

/-- Scan the haystack for a boundary-respecting occurrence, tracking
whether the previous character was a word character. -/
def wordSeqScan (toks : List (List Char)) : Bool → List Char → Bool
  | _, [] => false
  | prevW, c :: cs =>
    (!prevW && matchTokensFrom toks (c :: cs)) || wordSeqScan toks (isWordChar c) cs

/-- `re.search(r"\bw₁\s+w₂…\b", s, re.IGNORECASE) is not None`. -/
def containsWordSeqCI (ws : List String) (s : String) : Bool :=
  wordSeqScan (ws.map (fun w => (lowerStr w).data)) false (lowerStr s).data

/-- `re.search(r"\bw\b", s, re.IGNORECASE) is not None`. -/
def containsWordCI (w s : String) : Bool :=
  containsWordSeqCI [w] s

/-- `FORBIDDEN_PHRASES`: any pattern matches the description. -/
def forbiddenPhraseHit (d : String) : Bool :=
  containsWordCI "LLM" d || containsWordCI "prompt" d || containsWordCI "pipeline" d
  || containsWordCI "system" d || containsWordCI "model" d || containsWordCI "AI" d
  || containsWordCI "ChatGPT" d || containsWordCI "OpenAI" d
  || containsWordSeqCI ["Azure", "OpenAI"] d || containsWordCI "Anthropic" d
  || containsWordCI "Claude" d || containsWordCI "GPT" d || containsWordCI "orchestrator" d

/-- `^\s*core\.?\s*$` (case-insensitive) applied to a description already
lowercased and whitespace-stripped at both ends. -/
def matchOptDot (core : String) (t : List Char) : Bool :=
  t == core.data || t == core.data ++ ['.']

/-- `\s*information\.?$` from position `r` (trailing `\s*` has already been
stripped by the caller). -/
def infoTail (r : List Char) : Bool :=
  let r' := r.dropWhile pyIsSpace
  "information".data.isPrefixOf r' && (r'.drop 11 == [] || r'.drop 11 == ['.'])

/-- `^\s*Dataset\s*(with)?\s*information\.?\s*$` (case-insensitive), both
alternatives of the optional group. -/
def datasetInfoHit (t : List Char) : Bool :=
  "dataset".data.isPrefixOf t &&
    (let r1 := (t.drop 7).dropWhile pyIsSpace
     (("with".data.isPrefixOf r1) && infoTail (r1.drop 4)) || infoTail r1)

/-- `GENERIC_PATTERNS`: any pattern matches the description. -/
def genericHit (d : String) : Bool :=
  let t := (pyStrip (lowerStr d)).data
  matchOptDot "this asset contains data" t || matchOptDot "contains data" t
  || matchOptDot "a report" t || matchOptDot "report about something" t
  || datasetInfoHit t

/-- `FORBIDDEN_LANGUAGE`: any pattern matches the description. -/
def speculativeHit (d : String) : Bool :=
  containsWordSeqCI ["based", "on", "my", "knowledge"] d
  || containsWordSeqCI ["in", "general"] d
  || containsWordCI "typically" d || containsWordCI "likely" d
  || containsWordCI "probably" d
  || containsWordSeqCI ["appears", "to"] d
  || containsWordCI "may" d || containsWordCI "could" d

/-- Substring occurrence on character lists. -/
def listInfix (p : List Char) : List Char → Bool
  | [] => p.isPrefixOf []
  | c :: t => p.isPrefixOf (c :: t) || listInfix p t

/-- Case-insensitive substring search (`re.search` with a literal
alternation and no anchors). -/
def containsCI (pat s : String) : Bool :=
  listInfix (lowerStr pat).data (lowerStr s).data

/-- `r"general knowledge|training data|internet|wikipedia"` matched
case-insensitively against a source identifier. -/
def forbiddenSourceHit (s : String) : Bool :=
  containsCI "general knowledge" s || containsCI "training data" s
  || containsCI "internet" s || containsCI "wikipedia" s

/-! ### Semantic validator (`validate_semantic`) -/

/-- The `suggested_description` rule block. -/
def descErrs : PVal → List String
  | PVal.str d =>
    if pyStrip d = "" then ["suggested_description must be a non-empty string"]
    else
      (if d.length < 10 then ["suggested_description is too short (min 10 chars)"] else [])
      ++ (if d.length > 500 then ["suggested_description is too long (max 500 chars)"] else [])
      ++ (if genericHit d then ["suggested_description is trivially generic"] else [])
      ++ (if forbiddenPhraseHit d then
          ["suggested_description references forbidden concepts (LLM/prompt/system)"] else [])
      ++ (if speculativeHit d then
          ["suggested_description uses speculative or disallowed phrasing (forbidden concepts)"]
        else [])
  | _ => ["suggested_description must be a non-empty string"]

/-- The `confidence` closed-set rule (`conf not in CONFIDENCE_ALLOWED`). -/
def confErrs (confV : Option PVal) : List String :=
  if confV = some (PVal.str "low") || confV = some (PVal.str "medium")
      || confV = some (PVal.str "high") then []
  else ["confidence must be one of: low, medium, high"]

/-- Per-index checks of `used_sources` in the semantic stage.  A blank item
is reported and skipped (`continue`); otherwise the forbidden-source pattern
is applied. -/
def srcItemErrs : Nat → List String → List String
  | _, [] => []
  | i, s :: rest =>
    (if pyStrip s = "" then ["used_sources[" ++ toString i ++ "] must be a non-empty string"]
     else if forbiddenSourceHit s then
       ["used_sources[" ++ toString i ++ "] references forbidden source identifiers"]
     else [])
    ++ srcItemErrs (i + 1) rest

/-- The `used_sources` rule block. -/
def srcErrs : PVal → List String
  | PVal.arr items =>
    if items.length = 0 then ["used_sources must be a non-empty array"]
    else srcItemErrs 0 items
  | _ => ["used_sources must be a non-empty array"]

/-- The full accumulated semantic error list. -/
def semanticErrsOf (parsed : ParsedDoc) : List String :=
  descErrs ((pyGetP parsed "suggested_description").getD (PVal.str ""))
    ++ confErrs (pyGetP parsed "confidence")
    ++ srcErrs ((pyGetP parsed "used_sources").getD (PVal.arr []))

/-- `validate_semantic(parsed_yaml)`. -/
def validateSemantic (parsed : ParsedDoc) : ValidationResult :=
  let errs := semanticErrsOf parsed
  if errs.isEmpty then ValidationResult.valid else ValidationResult.invalidSemantic errs

/-! ### Orchestrator (`validate_output`) -/

/-- `validate_output(yaml_text)` for a non-`None` string input. -/
def validateOutput (s : String) : ValidationResult × ValidationResult :=
  let structural := validateStructural s
  if structural.is_valid then
    let pr := parseS s
    if pr.2.isEmpty then (structural, validateSemantic pr.1)
    else (ValidationResult.invalidStructural pr.2, ValidationResult.valid)
  else (structural, ValidationResult.valid)

/-- `validate_output` on an optional input; propagates the exception raised
by `validate_structural` on `None`. -/
def validateOutputE (input : Option String) :
    Except PyExc (ValidationResult × ValidationResult) := do
  let structural ← validateStructuralE input
  if structural.is_valid then
    let pr := parseOpt input
    if pr.2.isEmpty then return (structural, validateSemantic pr.1)
    else return (ValidationResult.invalidStructural pr.2, ValidationResult.valid)
  else return (structural, ValidationResult.valid)

/-! ### Change-detection decision (`decision.py`) -/

inductive DecisionResult
  | REPROCESS
  | SKIP
  deriving DecidableEq, Repr

/-- A value stored in a previous-state dict: a string or anything else. -/
inductive DVal
  | dstr (s : String)
  | dother
  deriving DecidableEq, Repr

/-- The `previous_state` argument: `None`, a bare hash string, a dict, or
an unsupported value such as a list. -/
inductive PrevState
  | noneP
  | strP (s : String)
  | dictP (d : List (String × DVal))
  | listP (l : List String)
  deriving DecidableEq, Repr

def dGet (d : List (String × DVal)) (k : String) : Option DVal :=
  (d.find? (fun p => p.1 = k)).map (fun p => p.2)

/-- The previous-hash extraction of `decide_reprocess_or_skip`: try `hash`,
fall back to `previousHash` when the candidate is not a non-empty string,
yield `None` for unsupported shapes. -/
def extractPrevHash : PrevState → Option String
  | .noneP => none
  | .strP s => some s
  | .dictP d =>
    let c1 := dGet d "hash"
    let needFallback : Bool :=
      match c1 with
      | some (.dstr c) => c == ""
      | _ => true
    let cand := if needFallback then dGet d "previousHash" else c1
    match cand with
    | some (.dstr c) => some c
    | _ => none
  | .listP _ => none

/-- `decide_reprocess_or_skip(current_hash, previous_state)`. -/
def decideReprocessOrSkip (currentHash : String) (prev : PrevState) : DecisionResult :=
  match prev with
  | .noneP => .REPROCESS
  | _ =>
    match extractPrevHash prev with
    | none => .REPROCESS
    | some p =>
      if p = "" then .REPROCESS
      else if p = currentHash then .SKIP else .REPROCESS

/-! ### Concrete documents from the specification's end-to-end scenarios -/

/-- The end-to-end scenario text, with its array item at column 0. -/
def e2eScenarioText : String :=
  "suggested_description: \"Annual report detailing emissions.\"\nconfidence: high\nused_sources:\n- Document: report.pdf, Page 1\n"

/-- A fully conforming document (array items indented). -/
def okDocText : String :=
  "suggested_description: \"Annual sustainability report detailing emissions.\"\nconfidence: high\nused_sources:\n  - Document: report.pdf, Page 1\n"

/-- The conforming document with a trailing unknown field appended. -/
def extraFieldDocText : String :=
  okDocText ++ "extra_field: nope\n"

/-! ### Claims -/

/-- C1: on the spec's end-to-end scenario text (array item at column 0),
`validate_output` does NOT return two valid results: the order
reconstruction treats the column-0 item line `- Document: report.pdf,
Page 1` (which contains a colon) as a top-level key line, so the structural
result carries the order-violation error and the semantic stage is replaced
by the valid placeholder.  The parser itself accepts the document cleanly,
and the semantic validator would accept the parsed fields — exhibiting that
the structural order pass alone causes the rejection. -/
theorem C1_scenario_rejected_by_code :
    validateOutput e2eScenarioText
      = (ValidationResult.invalidStructural [orderErrMsg], ValidationResult.valid)
    ∧ parseS e2eScenarioText
      = ([("suggested_description", PVal.str "Annual report detailing emissions."),
          ("confidence", PVal.str "high"),
          ("used_sources", PVal.arr ["Document: report.pdf, Page 1"])], [])
    ∧ validateSemantic (parseS e2eScenarioText).1 = ValidationResult.valid := by
  refine ⟨by decide, by decide, by decide⟩

/-- C4: called with `None`, the parser maps the input to the defect
`"Input is None"`, but `validate_structural` then calls `splitlines` on the
null input and raises `AttributeError` instead of returning a
`ValidationResult`; `validate_output(None)` aborts the same way.  A string
input never raises. -/
theorem C4_none_input_raises :
    validateStructuralE none = Except.error PyExc.attributeError
    ∧ validateOutputE none = Except.error PyExc.attributeError
    ∧ parseOpt none = ([], ["Input is None"])
    ∧ ∀ s : String, validateStructuralE (some s) = Except.ok (validateStructural s) := by
  exact ⟨rfl, rfl, rfl, fun s => rfl⟩

/-- C7 counterexample: the claim universally quantifies over every string
`h`, but `decide("", "")` returns `REPROCESS`, not `SKIP`: the extracted
previous hash `""` is falsy and triggers the safe default before the
equality comparison. -/
theorem C7_counterexample :
    decideReprocessOrSkip "" (PrevState.strP "") = DecisionResult.REPROCESS
    ∧ DecisionResult.REPROCESS ≠ DecisionResult.SKIP := by
  refine ⟨by decide, by decide⟩

/-- The `SKIP` branch of the decision implies the extracted hash matched. -/
theorem skip_implies_extracted (h : String) (e : Option String)
    (hm : (match e with
      | none => DecisionResult.REPROCESS
      | some p =>
        if p = "" then DecisionResult.REPROCESS
        else if p = h then DecisionResult.SKIP
        else DecisionResult.REPROCESS) = DecisionResult.SKIP) :
    e = some h := by
  cases e with
  | none => exact absurd hm (by simp)
  | some q =>
    have hm' : (if q = "" then DecisionResult.REPROCESS
        else if q = h then DecisionResult.SKIP
        else DecisionResult.REPROCESS) = DecisionResult.SKIP := hm
    split at hm'
    · exact absurd hm' (by simp)
    · split at hm'
      · next hq => rw [hq]
      · exact absurd hm' (by simp)

/-- C7 (amended): for every NON-EMPTY string `h`, the decision laws hold:
`decide(h, None) = REPROCESS`, `decide(h, h) = SKIP`,
`decide(h, dict(hash=h)) = SKIP`, `decide(h, dict(hash="")) = REPROCESS`,
`decide(h, ["unsupported"]) = REPROCESS`; and for every `h` and previous
state, `SKIP` is returned only when the extracted prior hash equals the
current hash exactly. -/
theorem C7_amended_decision_laws :
    (∀ h : String, h ≠ "" →
      decideReprocessOrSkip h PrevState.noneP = DecisionResult.REPROCESS
      ∧ decideReprocessOrSkip h (PrevState.strP h) = DecisionResult.SKIP
      ∧ decideReprocessOrSkip h (PrevState.dictP [("hash", DVal.dstr h)]) = DecisionResult.SKIP
      ∧ decideReprocessOrSkip h (PrevState.dictP [("hash", DVal.dstr "")])
          = DecisionResult.REPROCESS
      ∧ decideReprocessOrSkip h (PrevState.listP ["unsupported"]) = DecisionResult.REPROCESS)
    ∧ ∀ (h : String) (p : PrevState),
        decideReprocessOrSkip h p = DecisionResult.SKIP → extractPrevHash p = some h := by
  constructor
  · intro h hne
    have hbeq : (h == "") = false := by
      simp [hne]
    refine ⟨rfl, ?_, ?_, ?_, rfl⟩
    · simp [decideReprocessOrSkip, extractPrevHash, hne]
    · simp [decideReprocessOrSkip, extractPrevHash, dGet, hbeq, hne]
    · simp [decideReprocessOrSkip, extractPrevHash, dGet]
  · intro h p hskip
    cases p with
    | noneP => simp [decideReprocessOrSkip] at hskip
    | strP s => exact skip_implies_extracted h _ hskip
    | dictP d => exact skip_implies_extracted h _ hskip
    | listP l => exact skip_implies_extracted h _ hskip

/-- C7 witness: the amended laws instantiated at the concrete hash "h1". -/
theorem C7_witness :
    decideReprocessOrSkip "h1" (PrevState.strP "h1") = DecisionResult.SKIP
    ∧ decideReprocessOrSkip "h1" (PrevState.dictP [("hash", DVal.dstr "h1")])
        = DecisionResult.SKIP :=
  ⟨(C7_amended_decision_laws.1 "h1" (by decide)).2.1,
   (C7_amended_decision_laws.1 "h1" (by decide)).2.2.1⟩

/-- C3: whenever structural validation is invalid, `validate_output`
returns that structural result paired with the valid semantic placeholder
(the semantic stage is not evaluated); in particular the conforming
document is fully valid, and appending `extra_field: nope` yields a
structurally invalid result carrying the unknown-field error together with
the valid placeholder. -/
theorem C3_structural_shortcircuit :
    (∀ s : String, (validateStructural s).is_valid = false →
      validateOutput s = (validateStructural s, ValidationResult.valid))
    ∧ validateOutput okDocText = (ValidationResult.valid, ValidationResult.valid)
    ∧ (validateStructural extraFieldDocText).is_valid = false
    ∧ "Unknown field 'extra_field' not permitted by contract"
        ∈ (validateStructural extraFieldDocText).structural_errors
    ∧ validateOutput extraFieldDocText
        = (validateStructural extraFieldDocText, ValidationResult.valid) := by
  refine ⟨?_, by decide, by decide, by decide, by decide⟩
  intro s h
  simp [validateOutput, h]

/-- C3 witness: the short-circuit law instantiated at a structurally
invalid input. -/
theorem C3_witness :
    (validateStructural "oops").is_valid = false
    ∧ validateOutput "oops" = (validateStructural "oops", ValidationResult.valid) :=
  ⟨by decide, C3_structural_shortcircuit.1 "oops" (by decide)⟩

/-! ### The array-block look-ahead, characterized -/

/-- A look-ahead line kept in the array block: its whitespace-stripped form
begins with a dash. -/
def dashLine (l : String) : Bool :=
  sStartsWith (pyLstrip l) "-"

/-- The items the look-ahead collects: among the dash-shaped prefix, the
lines whose stripped form starts with `"- "`, trimmed after the dash. -/
def arrayItemsOf (rest : List String) : List String :=
  (rest.takeWhile dashLine).filterMap (fun l =>
    if sStartsWith (pyLstrip l) "- " then some (pyStrip ⟨(pyLstrip l).data.drop 2⟩) else none)

/-- The defects the look-ahead records: among the dash-shaped prefix, the
lines lacking the mandatory space after the dash. -/
def arrayDefectsOf (rest : List String) : List String :=
  (rest.takeWhile dashLine).filterMap (fun l =>
    if sStartsWith (pyLstrip l) "- " then none
    else some ("Invalid array item format: '" ++ l ++ "'"))

theorem isPrefixOf_dash_of_dashSpace : ∀ l : List Char,
    List.isPrefixOf ['-', ' '] l = true → List.isPrefixOf ['-'] l = true := by
  intro l h
  cases l with
  | nil => simp at h
  | cons c t =>
    simp at h ⊢
    exact h.1

theorem dashLine_of_dashSpace {l : String} (h : sStartsWith (pyLstrip l) "- " = true) :
    dashLine l = true := by
  have := isPrefixOf_dash_of_dashSpace (pyLstrip l).data
  simp only [sStartsWith] at h ⊢
  simp only [dashLine, sStartsWith]
  exact this (by exact h)

/-- The look-ahead loop computes exactly the takeWhile/filterMap
description above, and stops at the first non-dash-shaped line without
consuming it. -/
theorem collectItems_spec : ∀ ls : List String,
    collectItems ls = (arrayItemsOf ls, arrayDefectsOf ls, ls.dropWhile dashLine) := by
  intro ls
  induction ls with
  | nil => rfl
  | cons x xs ih =>
    by_cases hd : sStartsWith (pyLstrip x) "- "
    · have hm : dashLine x = true := dashLine_of_dashSpace hd
      simp only [collectItems, hd, Bool.not_true, Bool.and_false, Bool.if_false_right,
        Bool.and_true, ih, arrayItemsOf, arrayDefectsOf, List.takeWhile_cons, hm,
        List.dropWhile_cons, if_true, List.filterMap_cons]
      simp [hm, hd, dashLine]
    · by_cases hm : dashLine x
      · have hm' : sStartsWith (pyLstrip x) "-" = true := by
          simpa [dashLine] using hm
        simp only [collectItems, hm', hd, Bool.not_false, Bool.and_true, if_true, ih,
          arrayItemsOf, arrayDefectsOf, List.takeWhile_cons, hm, List.dropWhile_cons,
          List.filterMap_cons]
        simp [hm, hd, dashLine]
      · have hm' : sStartsWith (pyLstrip x) "-" = false := by
          simpa [dashLine] using hm
        simp only [collectItems, hm', hd, Bool.false_and, if_neg, arrayItemsOf,
          arrayDefectsOf, List.takeWhile_cons, List.dropWhile_cons, hm]
        simp [hm', hd, arrayItemsOf, arrayDefectsOf, dashLine, hm]

/-- Fuel irrelevance for the parser loop: any fuel at least the number of
remaining lines produces the same result. -/
theorem parseGoF_congr : ∀ (f1 : Nat), ∀ (f2 : Nat) (lines : List String)
    (p : ParsedDoc) (e : List String), lines.length ≤ f1 → lines.length ≤ f2 →
    parseGoF f1 lines p e = parseGoF f2 lines p e := by
  intro f1
  induction f1 with
  | zero =>
    intro f2 lines p e h1 _
    have hnil : lines = [] := List.eq_nil_of_length_eq_zero (Nat.le_zero.mp h1)
    subst hnil
    cases f2 <;> rfl
  | succ n ih =>
    intro f2 lines p e h1 h2
    cases lines with
    | nil => cases f2 <;> rfl
    | cons ln rest =>
      cases f2 with
      | zero => simp at h2
      | succ m =>
        have hr : rest.length ≤ n := Nat.le_of_succ_le_succ (by simpa using h1)
        have hr2 : rest.length ≤ m := Nat.le_of_succ_le_succ (by simpa using h2)
        have hc : (collectItems rest).2.2.length ≤ rest.length :=
          collectItems_rest_length rest
        simp only [parseGoF]
        split
        · exact ih m rest _ _ hr hr2
        · split
          · exact ih m rest _ _ hr hr2
          · split
            · exact ih m _ _ _ (le_trans hc hr) (le_trans hc hr2)
            · exact ih m rest _ _ hr hr2

theorem list_takeWhile_append {p : Char → Bool} : ∀ (l : List Char) (c : Char)
    (r : List Char), (∀ x ∈ l, p x = true) → p c = false →
    (l ++ c :: r).takeWhile p = l ∧ (l ++ c :: r).dropWhile p = c :: r := by
  intro l c r hall hc
  induction l with
  | nil => simp [List.takeWhile, List.dropWhile, hc]
  | cons a t ih =>
    have ha : p a = true := hall a (by simp)
    have ht : ∀ x ∈ t, p x = true := fun x hx => hall x (by simp [hx])
    have := ih ht
    simp [List.takeWhile_cons, List.dropWhile_cons, ha, this.1, this.2]

theorem startsWith_space_append (k r : String) (hk : sStartsWith k " " = false)
    (hr : sStartsWith r " " = false) : sStartsWith (k ++ r) " " = false := by
  have hdata : (k ++ r).data = k.data ++ r.data := String.data_append k r
  have hsp : (" " : String).data = [' '] := rfl
  simp only [sStartsWith, hsp] at hk hr ⊢
  rw [hdata]
  cases hkd : k.data with
  | nil => simpa using hr
  | cons c t =>
    rw [hkd] at hk
    simp only [List.cons_append]
    rw [List.isPrefixOf_cons₂] at hk ⊢
    simp only [List.isPrefixOf_nil_left, Bool.and_true] at hk ⊢
    exact hk

theorem contains_append_colon : ∀ l : List Char, (l ++ [':']).contains ':' = true := by
  intro l
  induction l with
  | nil => rfl
  | cons c t ih =>
    simp only [List.cons_append, List.contains_cons, ih, Bool.or_true]

/-- A well-formed key renders to a line whose parsed key is the key itself
and whose trimmed value is empty. -/
theorem keyline_facts (k : String) (hstrip : pyStrip k = k)
    (hcolon : sContainsChar k ':' = false) :
    keyOf (k ++ ":") = k ∧ valOf (k ++ ":") = "" := by
  have hdata : (k ++ ":").data = k.data ++ [':'] := String.data_append k ":"
  have hmem : ':' ∉ k.data := by simpa [sContainsChar] using hcolon
  have hall : ∀ x ∈ k.data, (decide (x ≠ ':') : Bool) = true := by
    intro x hx
    simp only [decide_eq_true_eq]
    intro hxe
    subst hxe
    exact hmem hx
  have htw := list_takeWhile_append (p := fun c => decide (c ≠ ':')) k.data ':' [] hall
    (by simp)
  constructor
  · simp only [keyOf, hdata]
    rw [show (k.data ++ [':'] : List Char) = k.data ++ ':' :: [] from rfl] at *
    rw [htw.1]
    exact hstrip
  · simp only [valOf, hdata]
    rw [show (k.data ++ [':'] : List Char) = k.data ++ ':' :: [] from rfl] at *
    rw [htw.2]
    rfl

/-- C2 counterexample: the claim restricts collection to indented lines,
but the look-ahead collects a column-0 `- a` line (no leading whitespace):
the stored value is the one-item sequence, not the null marker the claim
would require for zero indented items. -/
theorem C2_counterexample :
    pyGetP (parseS "k:\n- a").1 "k" = some (PVal.arr ["a"])
    ∧ sStartsWith "- a" " " = false
    ∧ pyLstrip "- a" = "- a"
    ∧ PVal.arr ["a"] ≠ PVal.pnull := by
  refine ⟨by decide, by decide, by decide, by decide⟩

/-- C2 (amended): when parse meets a top-level line with empty trimmed
value, the look-ahead collects exactly those subsequent lines that, once
whitespace-stripped, start with `"- "` (indentation NOT required), storing
the trimmed item text; a line whose stripped form starts with `"-"` but
without the space records the `invalid array item format` defect and is
skipped without stopping the scan; the first line matching neither shape
ends the block and is re-examined as the next top-level line; zero
collected items yield the null marker, which is distinct from the empty
sequence produced by `key: []`. -/
theorem C2_amended_array_block :
    (∀ (k : String) (rest : List String) (p : ParsedDoc) (errs : List String),
      pyStrip k = k → sContainsChar k ':' = false → sStartsWith k " " = false →
      parseGo ((k ++ ":") :: rest) p errs =
        parseGo (rest.dropWhile dashLine)
          (pyDictInsert p k
            (if arrayItemsOf rest = [] then PVal.pnull else PVal.arr (arrayItemsOf rest)))
          ((errs ++ (if containsKey p k then ["Duplicate key '" ++ k ++ "'"] else []))
            ++ arrayDefectsOf rest))
    ∧ PVal.pnull ≠ PVal.arr []
    ∧ pyGetP (parseS "k: []").1 "k" = some (PVal.arr [])
    ∧ pyGetP (parseS "k:").1 "k" = some PVal.pnull := by
  refine ⟨?_, by decide, by decide, by decide⟩
  intro k rest p errs hstrip hcolon hspace
  have hline_space : sStartsWith (k ++ ":") " " = false :=
    startsWith_space_append k ":" hspace (by decide)
  have hline_colon : sContainsChar (k ++ ":") ':' = true := by
    simp only [sContainsChar, String.data_append]
    exact contains_append_colon k.data
  have hkv := keyline_facts k hstrip hcolon
  have hrem : (rest.dropWhile dashLine).length ≤ rest.length := by
    have := collectItems_rest_length rest
    rw [collectItems_spec rest] at this
    exact this
  show parseGoF ((k ++ ":") :: rest).length ((k ++ ":") :: rest) p errs = _
  simp only [List.length_cons, parseGoF, hline_space, hline_colon, Bool.not_true,
    Bool.or_false, Bool.false_or, hkv.1, hkv.2, collectItems_spec rest]
  rw [if_pos trivial]
  have hempty : (arrayItemsOf rest).isEmpty = true ↔ arrayItemsOf rest = [] := by
    cases arrayItemsOf rest <;> simp [List.isEmpty]
  by_cases hi : arrayItemsOf rest = []
  · rw [if_pos (hempty.mpr hi), if_pos hi]
    exact parseGoF_congr rest.length _ _ _ _ hrem (le_refl _)
  · rw [if_neg (fun hcontra => hi (hempty.mp hcontra)), if_neg hi]
    exact parseGoF_congr rest.length _ _ _ _ hrem (le_refl _)

/-- C2 witness: the array-block law instantiated at a concrete key and
look-ahead lines (an indented item, a malformed `-b` item, a terminating
key line). -/
theorem C2_witness :
    parseGo (("used_sources" ++ ":") :: ["  - a", "  -b", "x: y"]) [] [] =
      parseGo (["  - a", "  -b", "x: y"].dropWhile dashLine)
        (pyDictInsert [] "used_sources"
          (if arrayItemsOf ["  - a", "  -b", "x: y"] = [] then PVal.pnull
           else PVal.arr (arrayItemsOf ["  - a", "  -b", "x: y"])))
        (([] ++ (if containsKey [] "used_sources"
            then ["Duplicate key '" ++ "used_sources" ++ "'"] else []))
          ++ arrayDefectsOf ["  - a", "  -b", "x: y"]) :=
  C2_amended_array_block.1 "used_sources" ["  - a", "  -b", "x: y"] [] []
    (by decide) (by decide) (by decide)

/-! ### Semantic-gate lemmas -/

theorem mem_dropWhile_of_neg {p : Char → Bool} : ∀ (l : List Char) (x : Char),
    x ∈ l → p x = false → x ∈ l.dropWhile p := by
  intro l x hx hpx
  induction l with
  | nil => simp at hx
  | cons a t ih =>
    rcases List.mem_cons.mp hx with hxa | hxt
    · subst hxa
      rw [List.dropWhile_cons, if_neg (by simp [hpx])]
      exact List.mem_cons_self _ _
    · rw [List.dropWhile_cons]
      split
      · exact ih hxt
      · exact List.mem_cons_of_mem _ hxt

theorem pyStrip_ne_empty_of_exists {s : String}
    (h : ∃ c ∈ s.data, pyIsSpace c = false) : pyStrip s ≠ "" := by
  rcases h with ⟨c, hc, hcs⟩
  intro hstrip
  have hdata : (pyRstrip s).data.dropWhile pyIsSpace = [] := congrArg String.data hstrip
  have hall := List.dropWhile_eq_nil_iff.mp hdata
  have h1 : c ∈ s.data.reverse := List.mem_reverse.mpr hc
  have h2 : c ∈ s.data.reverse.dropWhile pyIsSpace := mem_dropWhile_of_neg _ c h1 hcs
  have h3 : c ∈ (pyRstrip s).data := by
    show c ∈ (s.data.reverse.dropWhile pyIsSpace).reverse
    exact List.mem_reverse.mpr h2
  have := hall c h3
  rw [hcs] at this
  exact absurd this (by simp)

theorem wordSeq_exists_mem : ∀ (t : List Char) (ts : List (List Char)) (prevW : Bool)
    (hs : List Char), wordSeqScan (t :: ts) prevW hs = true → t ≠ [] →
    ∃ c ∈ hs, c ∈ t := by
  intro t ts prevW hs
  induction hs generalizing prevW with
  | nil =>
    intro h _
    simp [wordSeqScan] at h
  | cons c cs ih =>
    intro h ht
    simp only [wordSeqScan, Bool.or_eq_true, Bool.and_eq_true] at h
    rcases h with ⟨_, hm⟩ | hrec
    · have hpre : t.isPrefixOf (c :: cs) = true := by
        cases t with
        | nil => exact absurd rfl ht
        | cons d ds =>
          simp only [matchTokensFrom, Bool.and_eq_true] at hm
          exact hm.1
      cases t with
      | nil => exact absurd rfl ht
      | cons d ds =>
        rw [List.isPrefixOf_cons₂] at hpre
        have hd : d = c := by
          have hb := ((Bool.and_eq_true _ _).mp hpre).1
          exact beq_iff_eq.mp hb
        exact ⟨c, by simp, by rw [← hd]; simp⟩
    · obtain ⟨x, hx, hxt⟩ := ih (isWordChar c) hrec ht
      exact ⟨x, by simp [hx], hxt⟩

theorem pyIsSpace_toLower (c : Char) (h : pyIsSpace c = true) : Char.toLower c = c := by
  simp only [pyIsSpace, Bool.or_eq_true, decide_eq_true_eq] at h
  rcases h with ((((h | h) | h) | h) | h) | h <;> subst h <;> decide

/-- A whole-word occurrence of a non-blank word forces the description to
be non-blank after stripping. -/
theorem strip_ne_of_containsWord {w s : String} (h : containsWordCI w s = true)
    (hw : (lowerStr w).data ≠ []) (hwns : ∀ c ∈ (lowerStr w).data, pyIsSpace c = false) :
    pyStrip s ≠ "" := by
  obtain ⟨c, hc, hct⟩ := wordSeq_exists_mem (lowerStr w).data [] false (lowerStr s).data h hw
  obtain ⟨c0, hc0, hlow⟩ := List.mem_map.mp (by simpa [lowerStr] using hc)
  have hcs : pyIsSpace c = false := hwns c hct
  have hc0s : pyIsSpace c0 = false := by
    by_contra hcon
    have h1 : pyIsSpace c0 = true := by
      revert hcon
      cases pyIsSpace c0 <;> simp
    have h2 : Char.toLower c0 = c0 := pyIsSpace_toLower c0 h1
    rw [← hlow, h2] at hcs
    rw [hcs] at h1
    exact absurd h1 (by simp)
  exact pyStrip_ne_empty_of_exists ⟨c0, hc0, hc0s⟩

theorem validateSemantic_invalid_of_mem {parsed : ParsedDoc} {msg : String}
    (hm : msg ∈ semanticErrsOf parsed) :
    (validateSemantic parsed).is_valid = false
    ∧ msg ∈ (validateSemantic parsed).semantic_errors := by
  have hne : semanticErrsOf parsed ≠ [] := by
    intro hnil
    rw [hnil] at hm
    simp at hm
  have hemp : (semanticErrsOf parsed).isEmpty = false := by
    cases he : semanticErrsOf parsed with
    | nil => exact absurd he hne
    | cons a t => rfl
  constructor
  · simp [validateSemantic, hemp, ValidationResult.invalidSemantic]
  · simp only [validateSemantic, hemp, Bool.false_eq_true, if_false,
      ValidationResult.invalidSemantic]
    exact hm

/-- C6: for every parsed document, the semantic gate rejects: the exact
description `This asset contains data` (trivially-generic); any description
containing `LLM` or `AI` as a whole word, regardless of surrounding text
(forbidden-concept); the confidence value `very_high` (closed set
low/medium/high); and `used_sources = ["general knowledge"]` (per-index
forbidden-source). -/
theorem C6_semantic_gate :
    (∀ parsed : ParsedDoc,
      pyGetP parsed "suggested_description" = some (PVal.str "This asset contains data") →
        (validateSemantic parsed).is_valid = false
        ∧ "suggested_description is trivially generic"
            ∈ (validateSemantic parsed).semantic_errors)
    ∧ (∀ (parsed : ParsedDoc) (d : String),
      pyGetP parsed "suggested_description" = some (PVal.str d) →
      containsWordCI "LLM" d = true ∨ containsWordCI "AI" d = true →
        (validateSemantic parsed).is_valid = false
        ∧ "suggested_description references forbidden concepts (LLM/prompt/system)"
            ∈ (validateSemantic parsed).semantic_errors)
    ∧ (∀ parsed : ParsedDoc,
      pyGetP parsed "confidence" = some (PVal.str "very_high") →
        (validateSemantic parsed).is_valid = false
        ∧ "confidence must be one of: low, medium, high"
            ∈ (validateSemantic parsed).semantic_errors)
    ∧ (∀ parsed : ParsedDoc,
      pyGetP parsed "used_sources" = some (PVal.arr ["general knowledge"]) →
        (validateSemantic parsed).is_valid = false
        ∧ "used_sources[0] references forbidden source identifiers"
            ∈ (validateSemantic parsed).semantic_errors) := by
  refine ⟨?_, ?_, ?_, ?_⟩
  · intro parsed h
    apply validateSemantic_invalid_of_mem
    have hd : "suggested_description is trivially generic"
        ∈ descErrs (PVal.str "This asset contains data") := by decide
    simp only [semanticErrsOf, h, Option.getD_some]
    exact List.mem_append_left _ (List.mem_append_left _ hd)
  · intro parsed d h hw
    apply validateSemantic_invalid_of_mem
    have hne : ¬(pyStrip d = "") := by
      rcases hw with h1 | h1
      · exact strip_ne_of_containsWord h1 (by decide) (by decide)
      · exact strip_ne_of_containsWord h1 (by decide) (by decide)
    have hforb : forbiddenPhraseHit d = true := by
      rcases hw with h1 | h1 <;> simp [forbiddenPhraseHit, h1]
    have hd : "suggested_description references forbidden concepts (LLM/prompt/system)"
        ∈ descErrs (PVal.str d) := by
      simp [descErrs, hne, hforb]
    simp only [semanticErrsOf, h, Option.getD_some]
    exact List.mem_append_left _ (List.mem_append_left _ hd)
  · intro parsed h
    apply validateSemantic_invalid_of_mem
    have hc : "confidence must be one of: low, medium, high"
        ∈ confErrs (some (PVal.str "very_high")) := by decide
    simp only [semanticErrsOf, h]
    exact List.mem_append_left _ (List.mem_append_right _ hc)
  · intro parsed h
    apply validateSemantic_invalid_of_mem
    have hs : "used_sources[0] references forbidden source identifiers"
        ∈ srcErrs (PVal.arr ["general knowledge"]) := by decide
    simp only [semanticErrsOf, h, Option.getD_some]
    exact List.mem_append_right _ hs

/-- C6 witness: the four rejection laws instantiated at concrete parsed
documents. -/
theorem C6_witness :
    ((validateSemantic [("suggested_description", PVal.str "This asset contains data")]).is_valid
      = false)
    ∧ ((validateSemantic [("suggested_description",
        PVal.str "An LLM generated this summary.")]).is_valid = false)
    ∧ ((validateSemantic [("confidence", PVal.str "very_high")]).is_valid = false)
    ∧ ((validateSemantic [("used_sources", PVal.arr ["general knowledge"])]).is_valid = false) :=
  ⟨(C6_semantic_gate.1 _ (by decide)).1,
   (C6_semantic_gate.2.1 _ "An LLM generated this summary." (by decide)
     (Or.inl (by decide))).1,
   (C6_semantic_gate.2.2.1 _ (by decide)).1,
   (C6_semantic_gate.2.2.2 _ (by decide)).1⟩

/-! ### String-shape lemmas for rendered documents -/

theorem str_mk_data (s : String) : (⟨s.data⟩ : String) = s := by
  cases s
  rfl

theorem data_space : (" " : String).data = [' '] := rfl

theorem data_colon : (":" : String).data = [':'] := rfl

theorem data_colonSpace : (": " : String).data = [':', ' '] := rfl

theorem data_colonEmptyArr : (": []" : String).data = [':', ' ', '[', ']'] := rfl

theorem data_indentDash : ("  - " : String).data = [' ', ' ', '-', ' '] := rfl

theorem data_dash : ("-" : String).data = ['-'] := rfl

theorem data_dashSpace : ("- " : String).data = ['-', ' '] := rfl

theorem data_hashCh : ("#" : String).data = ['#'] := rfl

theorem isPrefixOf_single (ch c : Char) (t : List Char) :
    List.isPrefixOf [ch] (c :: t) = (ch == c) := by
  rw [List.isPrefixOf_cons₂]
  simp

theorem charDropWhile_length_le (p : Char → Bool) (l : List Char) :
    (l.dropWhile p).length ≤ l.length :=
  (List.dropWhile_sublist p).length_le

theorem dropWhile_eq_of_length {p : Char → Bool} :
    ∀ l : List Char, (l.dropWhile p).length = l.length → l.dropWhile p = l := by
  intro l h
  induction l with
  | nil => rfl
  | cons a t _ =>
    by_cases hp : p a
    · rw [List.dropWhile_cons_of_pos hp] at h ⊢
      have hle := charDropWhile_length_le p t
      simp at h
      omega
    · exact List.dropWhile_cons_of_neg hp

theorem dropWhile_eq_self_of_all {p : Char → Bool} :
    ∀ l : List Char, (∀ c ∈ l, p c = false) → l.dropWhile p = l := by
  intro l h
  cases l with
  | nil => rfl
  | cons a t => exact List.dropWhile_cons_of_neg (by simp [h a (by simp)])

theorem strip_fix_parts {v : String} (h : pyStrip v = v) :
    pyLstrip v = v ∧ pyRstrip v = v := by
  have hlen1 : (pyStrip v).data.length ≤ (pyRstrip v).data.length :=
    charDropWhile_length_le pyIsSpace (pyRstrip v).data
  have hlen2 : (pyRstrip v).data.length ≤ v.data.length := by
    show ((v.data.reverse.dropWhile pyIsSpace).reverse).length ≤ _
    rw [List.length_reverse]
    calc (v.data.reverse.dropWhile pyIsSpace).length
        ≤ v.data.reverse.length := charDropWhile_length_le _ _
      _ = v.data.length := List.length_reverse _
  have heq : (pyStrip v).data.length = v.data.length := by rw [h]
  have hr : pyRstrip v = v := by
    have hlen : (v.data.reverse.dropWhile pyIsSpace).length = v.data.reverse.length := by
      have h3 : (pyRstrip v).data.length = v.data.length := by omega
      have h4 : (pyRstrip v).data.length = (v.data.reverse.dropWhile pyIsSpace).length := by
        show ((v.data.reverse.dropWhile pyIsSpace).reverse).length = _
        rw [List.length_reverse]
      rw [List.length_reverse]
      omega
    have h5 := dropWhile_eq_of_length v.data.reverse hlen
    show (⟨(v.data.reverse.dropWhile pyIsSpace).reverse⟩ : String) = v
    rw [h5, List.reverse_reverse]
  have hl : pyLstrip v = v := by
    have h6 : pyStrip v = pyLstrip v := by rw [pyStrip, hr]
    rw [← h6, h]
  exact ⟨hl, hr⟩

theorem ne_empty_data {s : String} (h : s ≠ "") : s.data ≠ [] := by
  intro hd
  apply h
  have : s = ⟨s.data⟩ := (str_mk_data s).symm
  rw [this, hd]

theorem strip_fix_head {n : String} (h : pyStrip n = n) (hne : n ≠ "") :
    ∃ c t, n.data = c :: t ∧ pyIsSpace c = false := by
  have hl := (strip_fix_parts h).1
  cases hd : n.data with
  | nil => exact absurd hd (ne_empty_data hne)
  | cons c t =>
    refine ⟨c, t, rfl, ?_⟩
    by_contra hcon
    have hc : pyIsSpace c = true := by
      revert hcon
      cases pyIsSpace c <;> simp
    have h7 : n.data.dropWhile pyIsSpace = n.data := congrArg String.data hl
    rw [hd, List.dropWhile_cons_of_pos hc] at h7
    have hlen := congrArg List.length h7
    have hle := charDropWhile_length_le pyIsSpace t
    simp at hlen
    omega

theorem strip_fix_last {n : String} (h : pyStrip n = n) (hne : n ≠ "") :
    ∃ c t, n.data.reverse = c :: t ∧ pyIsSpace c = false := by
  have hr := (strip_fix_parts h).2
  cases hd : n.data.reverse with
  | nil =>
    have : n.data = [] := by
      have := congrArg List.reverse hd
      simpa using this
    exact absurd this (ne_empty_data hne)
  | cons c t =>
    refine ⟨c, t, rfl, ?_⟩
    by_contra hcon
    have hc : pyIsSpace c = true := by
      revert hcon
      cases pyIsSpace c <;> simp
    have h7 : (n.data.reverse.dropWhile pyIsSpace).reverse = n.data :=
      congrArg String.data hr
    rw [hd, List.dropWhile_cons_of_pos hc] at h7
    have hlen := congrArg List.length h7
    have hle := charDropWhile_length_le pyIsSpace t
    simp only [List.length_reverse] at hlen
    have hnd : n.data.length = t.length + 1 := by
      have h8 := congrArg List.length hd
      simp only [List.length_reverse, List.length_cons] at h8
      omega
    omega

theorem pyLstrip_of_head {c : Char} {t : List Char} (hc : pyIsSpace c = false) :
    pyLstrip ⟨c :: t⟩ = ⟨c :: t⟩ := by
  show (⟨(c :: t).dropWhile pyIsSpace⟩ : String) = _
  rw [List.dropWhile_cons_of_neg (by simp [hc])]

theorem pyRstrip_of_last {s : String} {c : Char} {t : List Char}
    (hd : s.data.reverse = c :: t) (hc : pyIsSpace c = false) : pyRstrip s = s := by
  show (⟨(s.data.reverse.dropWhile pyIsSpace).reverse⟩ : String) = s
  rw [hd, List.dropWhile_cons_of_neg (by simp [hc]), ← hd, List.reverse_reverse]

theorem contains_colon_append : ∀ (l r : List Char), ((l ++ ':' :: r).contains ':') = true := by
  intro l r
  induction l with
  | nil => simp
  | cons c t ih => simp [ih]

/-! ### Rendered documents: an entry list and its line rendering.

A document family general enough to express order-permutation and
duplicate-key claims: each entry renders to a scalar line `name: value`,
an empty-array line `name: []`, or an array block `name:` followed by
indented `  - item` lines. -/

inductive EVal where
  | scalar (v : String)
  | items (l : List String)
  | emptyArr
  deriving DecidableEq, Repr

structure Entry where
  name : String
  val : EVal
  deriving DecidableEq, Repr

def entryLines (e : Entry) : List String :=
  match e.val with
  | .scalar v => [e.name ++ ": " ++ v]
  | .emptyArr => [e.name ++ ": " ++ "[]"]
  | .items l => (e.name ++ ":") :: l.map (fun it => "  - " ++ it)

def renderLines (doc : List Entry) : List String :=
  (doc.map entryLines).flatten

/-- The parsed value an entry produces. -/
def evalE : EVal → PVal
  | .scalar v => .str (stripQuotes v)
  | .emptyArr => .arr []
  | .items l => if l.isEmpty then .pnull else .arr l

/-- Well-formedness of a field name: trim-stable, non-empty, no colon, not
starting with a dash or a hash mark. -/
def goodKeyB (n : String) : Bool :=
  (pyStrip n == n) && !sContainsChar n ':' && !(n == "")
    && !sStartsWith n "-" && !sStartsWith n "#"

/-- Well-formedness of a scalar value: trim-stable, non-empty, not the
empty-array form. -/
def goodScalarB (v : String) : Bool :=
  (pyStrip v == v) && !(v == "") && !(v == "[]")

/-- Well-formedness of an array item: trim-stable and non-empty. -/
def goodItemB (it : String) : Bool :=
  (pyStrip it == it) && !(it == "")

def wfEntryB (e : Entry) : Bool :=
  goodKeyB e.name &&
    (match e.val with
     | .scalar v => goodScalarB v
     | .items l => l.all goodItemB
     | .emptyArr => true)

theorem goodKeyB_spec {n : String} (h : goodKeyB n = true) :
    pyStrip n = n ∧ sContainsChar n ':' = false ∧ n ≠ ""
    ∧ sStartsWith n "-" = false ∧ sStartsWith n "#" = false := by
  simp only [goodKeyB, Bool.and_eq_true, Bool.not_eq_true', beq_iff_eq] at h
  exact ⟨h.1.1.1.1, h.1.1.1.2, by simpa using h.1.1.2, h.1.2, h.2⟩

theorem goodScalarB_spec {v : String} (h : goodScalarB v = true) :
    pyStrip v = v ∧ v ≠ "" ∧ v ≠ "[]" := by
  simp only [goodScalarB, Bool.and_eq_true, Bool.not_eq_true', beq_iff_eq] at h
  exact ⟨h.1.1, by simpa using h.1.2, by simpa using h.2⟩

theorem goodItemB_spec {it : String} (h : goodItemB it = true) :
    pyStrip it = it ∧ it ≠ "" := by
  simp only [goodItemB, Bool.and_eq_true, Bool.not_eq_true', beq_iff_eq] at h
  exact ⟨h.1, by simpa using h.2⟩

/-! #### Facts about a rendered scalar-shaped line `n ++ ": " ++ v` -/

theorem scalar_line_data (n v : String) :
    (n ++ ": " ++ v).data = n.data ++ ':' :: ' ' :: v.data := by
  simp [data_colonSpace]

theorem nonspace_ne_space {c : Char} (hc : pyIsSpace c = false) : (' ' == c) = false := by
  by_contra hcon
  have h1 : (' ' == c) = true := by
    revert hcon
    cases (' ' == c) <;> simp
  have h2 : c = ' ' := (beq_iff_eq.mp h1).symm
  subst h2
  simp [pyIsSpace] at hc

theorem scalar_line_startsSpace {n : String} (v : String) (hstrip : pyStrip n = n)
    (hne : n ≠ "") : sStartsWith (n ++ ": " ++ v) " " = false := by
  obtain ⟨c, t, hd, hc⟩ := strip_fix_head hstrip hne
  simp only [sStartsWith, data_space, scalar_line_data, hd, List.cons_append]
  rw [isPrefixOf_single]
  exact nonspace_ne_space hc

theorem scalar_line_containsColon (n v : String) :
    sContainsChar (n ++ ": " ++ v) ':' = true := by
  simp only [sContainsChar, scalar_line_data]
  exact contains_colon_append n.data (' ' :: v.data)

theorem colon_notMem_spec {n : String} (hcolon : sContainsChar n ':' = false) :
    ∀ x ∈ n.data, (decide (x ≠ ':') : Bool) = true := by
  have hmem : ':' ∉ n.data := by simpa [sContainsChar] using hcolon
  intro x hx
  simp only [decide_eq_true_eq]
  intro hxe
  subst hxe
  exact hmem hx

theorem scalar_line_keyOf {n : String} (v : String) (hstrip : pyStrip n = n)
    (hcolon : sContainsChar n ':' = false) : keyOf (n ++ ": " ++ v) = n := by
  have htw := list_takeWhile_append (p := fun c => decide (c ≠ ':')) n.data ':'
    (' ' :: v.data) (colon_notMem_spec hcolon) (by simp)
  simp only [keyOf, scalar_line_data]
  rw [htw.1, str_mk_data]
  exact hstrip

theorem strip_space_cons {v : String} (hv : pyStrip v = v) :
    pyStrip ⟨' ' :: v.data⟩ = v := by
  by_cases hne : v = ""
  · subst hne
    rfl
  · obtain ⟨lc, lt, hld, hlc⟩ := strip_fix_last hv hne
    have hrev : (' ' :: v.data).reverse = lc :: (lt ++ [' ']) := by
      rw [List.reverse_cons, hld]
      rfl
    have hrs : pyRstrip ⟨' ' :: v.data⟩ = ⟨' ' :: v.data⟩ :=
      pyRstrip_of_last (s := ⟨' ' :: v.data⟩) hrev hlc
    show pyLstrip (pyRstrip ⟨' ' :: v.data⟩) = v
    rw [hrs]
    show (⟨(' ' :: v.data).dropWhile pyIsSpace⟩ : String) = v
    rw [List.dropWhile_cons_of_pos (by simp [pyIsSpace])]
    have hlfix : v.data.dropWhile pyIsSpace = v.data :=
      congrArg String.data (strip_fix_parts hv).1
    rw [hlfix]

theorem scalar_line_valOf {n : String} (v : String) (hcolon : sContainsChar n ':' = false)
    (hv : pyStrip v = v) : valOf (n ++ ": " ++ v) = v := by
  have htw := list_takeWhile_append (p := fun c => decide (c ≠ ':')) n.data ':'
    (' ' :: v.data) (colon_notMem_spec hcolon) (by simp)
  simp only [valOf, scalar_line_data]
  rw [htw.2]
  show pyStrip ⟨' ' :: v.data⟩ = v
  exact strip_space_cons hv

/-! #### Facts about a rendered item line `"  - " ++ it` -/

theorem item_line_data (it : String) : ("  - " ++ it).data = ' ' :: ' ' :: '-' :: ' ' :: it.data := by
  simp [data_indentDash]

theorem item_line_lstrip (it : String) :
    pyLstrip ("  - " ++ it) = ⟨'-' :: ' ' :: it.data⟩ := by
  show (⟨("  - " ++ it).data.dropWhile pyIsSpace⟩ : String) = _
  rw [item_line_data]
  rfl

theorem item_line_dashSpace (it : String) :
    sStartsWith (pyLstrip ("  - " ++ it)) "- " = true := by
  rw [item_line_lstrip]
  simp only [sStartsWith, data_dashSpace]
  rw [List.isPrefixOf_cons₂]
  simp [List.isPrefixOf_cons₂]

theorem item_line_value {it : String} (hit : pyStrip it = it) :
    pyStrip ⟨(pyLstrip ("  - " ++ it)).data.drop 2⟩ = it := by
  rw [item_line_lstrip]
  show pyStrip ⟨it.data⟩ = it
  rw [str_mk_data]
  exact hit

theorem item_line_dashLine (it : String) : dashLine ("  - " ++ it) = true := by
  rw [dashLine, item_line_lstrip]
  simp only [sStartsWith, data_dash]
  rw [isPrefixOf_single]
  rfl

theorem item_line_startsSpace (it : String) : sStartsWith ("  - " ++ it) " " = true := by
  simp only [sStartsWith, data_space, item_line_data]
  rw [isPrefixOf_single]
  rfl

/-! #### Facts about key-shaped lines `n ++ r` with a well-formed name -/

theorem append_startsSpace {n : String} (r : String) (hstrip : pyStrip n = n)
    (hne : n ≠ "") : sStartsWith (n ++ r) " " = false := by
  obtain ⟨c, t, hd, hc⟩ := strip_fix_head hstrip hne
  simp only [sStartsWith, data_space, String.data_append, hd, List.cons_append]
  rw [isPrefixOf_single]
  exact nonspace_ne_space hc

theorem append_lstrip {n : String} (r : String) (hstrip : pyStrip n = n) (hne : n ≠ "") :
    pyLstrip (n ++ r) = n ++ r := by
  obtain ⟨c, t, hd, hc⟩ := strip_fix_head hstrip hne
  have hdl : (n ++ r).data = c :: (t ++ r.data) := by simp [hd]
  show (⟨(n ++ r).data.dropWhile pyIsSpace⟩ : String) = n ++ r
  rw [hdl, List.dropWhile_cons_of_neg (by simp [hc]), ← hdl, str_mk_data]

theorem nonhead_char_false {n : String} {ch c : Char} {t : List Char}
    (hd : n.data = c :: t) (h : sStartsWith n ⟨[ch]⟩ = false) : (ch == c) = false := by
  simpa [sStartsWith, hd, isPrefixOf_single] using h

theorem append_dashLine {n : String} (r : String) (hstrip : pyStrip n = n) (hne : n ≠ "")
    (hdash : sStartsWith n "-" = false) : dashLine (n ++ r) = false := by
  rw [dashLine, append_lstrip r hstrip hne]
  obtain ⟨c, t, hd, _⟩ := strip_fix_head hstrip hne
  simp only [sStartsWith, data_dash, String.data_append, hd, List.cons_append]
  rw [isPrefixOf_single]
  exact nonhead_char_false hd (by simpa [data_dash] using hdash)

theorem append_strip_fix {n : String} (r : String) (hn : pyStrip n = n) (hne : n ≠ "")
    (hr : ∃ c t, r.data.reverse = c :: t ∧ pyIsSpace c = false) :
    pyStrip (n ++ r) = n ++ r := by
  obtain ⟨c, t, hd, hc⟩ := hr
  have hrev : (n ++ r).data.reverse = c :: (t ++ n.data.reverse) := by
    simp [hd]
  have hrs : pyRstrip (n ++ r) = n ++ r := pyRstrip_of_last hrev hc
  show pyLstrip (pyRstrip (n ++ r)) = n ++ r
  rw [hrs]
  exact append_lstrip r hn hne

theorem mk_cons_ne_empty (c : Char) (t : List Char) : (⟨c :: t⟩ : String) ≠ "" := by
  intro h
  have h2 := congrArg String.data h
  simp at h2

theorem append_ne_empty {n : String} (r : String) (hstrip : pyStrip n = n) (hne : n ≠ "") :
    n ++ r ≠ "" := by
  obtain ⟨c, t, hd, _⟩ := strip_fix_head hstrip hne
  intro h
  have h2 := congrArg String.data h
  rw [String.data_append, hd] at h2
  simp at h2

theorem append_hash_strip_false {n : String} (r : String) (hn : pyStrip n = n)
    (hne : n ≠ "") (hhash : sStartsWith n "#" = false)
    (hr : ∃ c t, r.data.reverse = c :: t ∧ pyIsSpace c = false) :
    sStartsWith (pyStrip (n ++ r)) "#" = false ∧ pyStrip (n ++ r) ≠ "" := by
  rw [append_strip_fix r hn hne hr]
  obtain ⟨c, t, hd, _⟩ := strip_fix_head hn hne
  constructor
  · simp only [sStartsWith, data_hashCh, String.data_append, hd, List.cons_append]
    rw [isPrefixOf_single]
    exact nonhead_char_false hd (by simpa [data_hashCh] using hhash)
  · exact append_ne_empty r hn hne

/-! #### Item-line strip facts -/

theorem item_line_strip {it : String} (hit : pyStrip it = it) (hne : it ≠ "") :
    pyStrip ("  - " ++ it) = ⟨'-' :: ' ' :: it.data⟩ := by
  obtain ⟨c, t, hd, hc⟩ := strip_fix_last hit hne
  have hrev : ("  - " ++ it).data.reverse = c :: (t ++ [' ', '-', ' ', ' ']) := by
    rw [item_line_data]
    simp [hd]
  have hrs := pyRstrip_of_last hrev hc
  show pyLstrip (pyRstrip _) = _
  rw [hrs]
  exact item_line_lstrip it

theorem item_line_comment_facts {it : String} (hit : pyStrip it = it) (hne : it ≠ "") :
    sStartsWith (pyStrip ("  - " ++ it)) "#" = false ∧ pyStrip ("  - " ++ it) ≠ "" := by
  rw [item_line_strip hit hne]
  refine ⟨?_, mk_cons_ne_empty _ _⟩
  show List.isPrefixOf ['#'] ('-' :: ' ' :: it.data) = false
  rw [isPrefixOf_single]
  rfl

/-! #### The look-ahead applied to rendered item lines -/

theorem collectItems_items : ∀ (l : List String) (rest : List String),
    (∀ it ∈ l, goodItemB it = true) →
    (match rest with | [] => True | x :: _ => dashLine x = false) →
    collectItems (l.map (fun it => "  - " ++ it) ++ rest) = (l, [], rest) := by
  intro l
  induction l with
  | nil =>
    intro rest _ hrest
    cases rest with
    | nil => rfl
    | cons x xs =>
      have h1 : sStartsWith (pyLstrip x) "-" = false := by
        simpa [dashLine] using hrest
      have h2 : sStartsWith (pyLstrip x) "- " = false := by
        by_contra hcon
        have h3 : sStartsWith (pyLstrip x) "- " = true := by
          revert hcon
          cases sStartsWith (pyLstrip x) "- " <;> simp
        have := dashLine_of_dashSpace h3
        rw [dashLine] at this
        rw [this] at h1
        exact absurd h1 (by simp)
      simp [collectItems, h1, h2]
  | cons it its ih =>
    intro rest hl hrest
    have hit := goodItemB_spec (hl it (by simp))
    have hsp : sStartsWith (pyLstrip ("  - " ++ it)) "- " = true := item_line_dashSpace it
    have hval := item_line_value hit.1
    have hrec := ih rest (fun x hx => hl x (by simp [hx])) hrest
    simp only [List.map_cons, List.cons_append, collectItems, hsp, Bool.not_true,
      Bool.and_false, hrec, hval]
    simp [hrec]

/-! #### The parser meets a rendered document -/

/-- Duplicate-key defects accumulated while inserting rendered entries. -/
def dupErrsOf (p : ParsedDoc) : List Entry → List String
  | [] => []
  | e :: es =>
    (if containsKey p e.name then ["Duplicate key '" ++ e.name ++ "'"] else [])
      ++ dupErrsOf (pyDictInsert p e.name (evalE e.val)) es

/-- The parsed dict after inserting rendered entries. -/
def foldIns (p : ParsedDoc) : List Entry → ParsedDoc
  | [] => p
  | e :: es => foldIns (pyDictInsert p e.name (evalE e.val)) es

theorem renderLines_cons (e : Entry) (es : List Entry) :
    renderLines (e :: es) = entryLines e ++ renderLines es := by
  simp [renderLines]

theorem wfEntryB_name {e : Entry} (h : wfEntryB e = true) : goodKeyB e.name = true := by
  simp only [wfEntryB, Bool.and_eq_true] at h
  exact h.1

theorem entryLines_ne_nil (e : Entry) : entryLines e ≠ [] := by
  cases h : e.val <;> simp [entryLines, h]

theorem renderLines_head_not_dash (doc : List Entry)
    (hwf : ∀ e ∈ doc, wfEntryB e = true) :
    match renderLines doc with | [] => True | x :: _ => dashLine x = false := by
  cases doc with
  | nil => exact trivial
  | cons e es =>
    have hk := goodKeyB_spec (wfEntryB_name (hwf e (by simp)))
    have hdash : ∀ r, dashLine (e.name ++ r) = false := fun r =>
      append_dashLine r hk.1 hk.2.2.1 hk.2.2.2.1
    rw [renderLines_cons]
    cases hv : e.val with
    | scalar v =>
      simp only [entryLines, hv, List.cons_append]
      rw [String.append_assoc]
      exact hdash _
    | emptyArr =>
      simp only [entryLines, hv, List.cons_append]
      rw [String.append_assoc]
      exact hdash _
    | items l =>
      simp only [entryLines, hv, List.cons_append]
      exact hdash _

/-- One loop iteration of the parser consumes one rendered entry. -/
theorem parseGoF_entry (e : Entry) (f : Nat) (rest : List String) (p : ParsedDoc)
    (errs : List String) (hwf : wfEntryB e = true)
    (hrest : match rest with | [] => True | x :: _ => dashLine x = false) :
    parseGoF (f + 1) (entryLines e ++ rest) p errs
      = parseGoF f rest (pyDictInsert p e.name (evalE e.val))
          (errs ++ (if containsKey p e.name then ["Duplicate key '" ++ e.name ++ "'"] else [])) := by
  have hk := goodKeyB_spec (wfEntryB_name hwf)
  cases hv : e.val with
  | scalar v =>
    have hgv : goodScalarB v = true := by
      simp only [wfEntryB, hv, Bool.and_eq_true] at hwf
      exact hwf.2
    have hs := goodScalarB_spec hgv
    have hline_sp : sStartsWith (e.name ++ ": " ++ v) " " = false := by
      rw [String.append_assoc]
      exact append_startsSpace _ hk.1 hk.2.2.1
    have hline_co := scalar_line_containsColon e.name v
    have hkey := scalar_line_keyOf v hk.1 hk.2.1
    have hval := scalar_line_valOf v hk.2.1 hs.1
    simp only [entryLines, hv, List.cons_append, parseGoF, hline_sp, hline_co,
      Bool.not_true, Bool.or_false, hkey, hval, evalE]
    simp [hs.2.1, hs.2.2]
  | emptyArr =>
    have hline_sp : sStartsWith (e.name ++ ": " ++ "[]") " " = false := by
      rw [String.append_assoc]
      exact append_startsSpace _ hk.1 hk.2.2.1
    have hline_co := scalar_line_containsColon e.name "[]"
    have hkey := scalar_line_keyOf "[]" hk.1 hk.2.1
    have hval := scalar_line_valOf "[]" hk.2.1 (by rfl)
    simp only [entryLines, hv, List.cons_append, parseGoF, hline_sp, hline_co,
      Bool.not_true, Bool.or_false, hkey, hval, evalE]
    simp
  | items l =>
    have hgl : ∀ it ∈ l, goodItemB it = true := by
      simp only [wfEntryB, hv, Bool.and_eq_true, List.all_eq_true] at hwf
      exact fun it hx => hwf.2 it hx
    have hline_sp : sStartsWith (e.name ++ ":") " " = false :=
      append_startsSpace _ hk.1 hk.2.2.1
    have hline_co : sContainsChar (e.name ++ ":") ':' = true := by
      simp only [sContainsChar, String.data_append, data_colon]
      exact contains_colon_append e.name.data []
    have hkv := keyline_facts e.name hk.1 hk.2.1
    have hcoll := collectItems_items l rest hgl hrest
    simp only [entryLines, hv, List.cons_append, parseGoF, hline_sp, hline_co,
      Bool.not_true, Bool.or_false, hkv.1, hkv.2, hcoll, evalE]
    simp

/-- The parser, applied to a rendered well-formed document, computes the
fold of Python-dict insertions together with the duplicate-key defects. -/
theorem parseGoF_render : ∀ (doc : List Entry) (fuel : Nat) (p : ParsedDoc)
    (errs : List String), (∀ e ∈ doc, wfEntryB e = true) →
    (renderLines doc).length ≤ fuel →
    parseGoF fuel (renderLines doc) p errs = (foldIns p doc, errs ++ dupErrsOf p doc) := by
  intro doc
  induction doc with
  | nil =>
    intro fuel p errs _ _
    cases fuel <;> simp [renderLines, parseGoF, foldIns, dupErrsOf]
  | cons e es ih =>
    intro fuel p errs hwf hfuel
    rw [renderLines_cons] at hfuel ⊢
    have h1 : 1 ≤ (entryLines e).length := by
      cases hel : entryLines e with
      | nil => exact absurd hel (entryLines_ne_nil e)
      | cons a b => simp
    have hlen : 1 ≤ fuel := by
      rw [List.length_append] at hfuel
      omega
    obtain ⟨f, rfl⟩ : ∃ f, fuel = f + 1 := ⟨fuel - 1, by omega⟩
    rw [parseGoF_entry e f _ p errs (hwf e (by simp))
      (renderLines_head_not_dash es (fun x hx => hwf x (by simp [hx])))]
    rw [ih f _ _ (fun x hx => hwf x (by simp [hx]))
      (by rw [List.length_append] at hfuel; omega)]
    simp [foldIns, dupErrsOf, List.append_assoc]

/-! #### Python-dict lookup lemmas -/

theorem find?_map_replace_ne (k k2 : String) (v : PVal) (h : k2 ≠ k) : ∀ p : ParsedDoc,
    pyGetP (p.map (fun q => if q.1 = k then (k, v) else q)) k2 = pyGetP p k2 := by
  intro p
  induction p with
  | nil => rfl
  | cons a t ih =>
    by_cases hak : a.1 = k
    · simp only [List.map_cons, if_pos hak, pyGetP] at *
      rw [List.find?_cons_of_neg _ (by simpa using fun he : k = k2 => h he.symm),
        List.find?_cons_of_neg _ (by simpa using fun he : a.1 = k2 => h (hak ▸ he).symm)]
      exact ih
    · simp only [List.map_cons, if_neg hak, pyGetP] at *
      by_cases hak2 : a.1 = k2
      · rw [List.find?_cons_of_pos _ (by simpa using hak2),
          List.find?_cons_of_pos _ (by simpa using hak2)]
      · rw [List.find?_cons_of_neg _ (by simpa using hak2),
          List.find?_cons_of_neg _ (by simpa using hak2)]
        exact ih

theorem find?_map_replace_eq (k : String) (v : PVal) : ∀ p : ParsedDoc,
    containsKey p k = true →
    pyGetP (p.map (fun q => if q.1 = k then (k, v) else q)) k = some v := by
  intro p
  induction p with
  | nil => intro h; simp [containsKey] at h
  | cons a t ih =>
    intro hc
    by_cases hak : a.1 = k
    · simp only [List.map_cons, if_pos hak, pyGetP]
      rw [List.find?_cons_of_pos _ (by simp)]
      rfl
    · have hct : containsKey t k = true := by
        have hor := hc
        simp only [containsKey, List.any_cons, Bool.or_eq_true] at hor
        rcases hor with h1 | h1
        · exact absurd (of_decide_eq_true h1) hak
        · exact h1
      simp only [List.map_cons, if_neg hak, pyGetP] at *
      rw [List.find?_cons_of_neg _ (by simpa using hak)]
      exact ih hct

theorem pyGetP_insert (p : ParsedDoc) (k k2 : String) (v : PVal) :
    pyGetP (pyDictInsert p k v) k2 = if k2 = k then some v else pyGetP p k2 := by
  unfold pyDictInsert
  by_cases hc : p.any (fun q => q.1 = k) = true
  · rw [if_pos hc]
    by_cases hk2 : k2 = k
    · rw [if_pos hk2, hk2]
      exact find?_map_replace_eq k v p hc
    · rw [if_neg hk2]
      exact find?_map_replace_ne k k2 v hk2 p
  · rw [if_neg hc]
    by_cases hk2 : k2 = k
    · rw [if_pos hk2]
      have hnone : p.find? (fun q => decide (q.1 = k2)) = none := by
        rw [List.find?_eq_none]
        intro x hx
        simp only [decide_eq_true_eq]
        intro hxe
        apply hc
        rw [List.any_eq_true]
        exact ⟨x, hx, by simp [← hk2, hxe]⟩
      simp only [pyGetP]
      rw [List.find?_append, hnone]
      simp [List.find?_cons, hk2]
    · simp only [pyGetP]
      rw [List.find?_append]
      have h2 : ([((k, v))] : ParsedDoc).find? (fun q => decide (q.1 = k2)) = none := by
        simp [List.find?_cons, show ¬(k = k2) from fun h => hk2 h.symm]
      rw [h2]
      cases p.find? (fun q => decide (q.1 = k2)) <;> simp [hk2]

theorem containsKey_iff_getP (p : ParsedDoc) (k : String) :
    containsKey p k = (pyGetP p k).isSome := by
  induction p with
  | nil => rfl
  | cons a t ih =>
    by_cases hak : a.1 = k
    · have hp : (fun q : String × PVal => decide (q.1 = k)) a = true := by simpa using hak
      simp [containsKey, pyGetP, List.any_cons, hak, List.find?_cons_of_pos _ hp]
    · simp only [containsKey, pyGetP, List.any_cons] at *
      rw [List.find?_cons_of_neg _ (by simpa using hak)]
      simpa [hak] using ih

theorem containsKey_insert (p : ParsedDoc) (k k2 : String) (v : PVal) :
    containsKey (pyDictInsert p k v) k2 = true ↔ k2 = k ∨ containsKey p k2 = true := by
  rw [containsKey_iff_getP, pyGetP_insert, containsKey_iff_getP]
  by_cases hk2 : k2 = k <;> simp [hk2]

/-- Value stored for key `k` coming from the last entry of the document
named `k` (if any). -/
def lastVal : List Entry → String → Option PVal
  | [], _ => none
  | e :: es, k =>
    match lastVal es k with
    | some v => some v
    | none => if e.name = k then some (evalE e.val) else none

theorem pyGetP_foldIns : ∀ (doc : List Entry) (p : ParsedDoc) (k : String),
    pyGetP (foldIns p doc) k
      = match lastVal doc k with
        | some v => some v
        | none => pyGetP p k := by
  intro doc
  induction doc with
  | nil => intro p k; rfl
  | cons e es ih =>
    intro p k
    show pyGetP (foldIns (pyDictInsert p e.name (evalE e.val)) es) k = _
    rw [ih]
    cases hl : lastVal es k with
    | some v => simp [lastVal, hl]
    | none =>
      rw [pyGetP_insert]
      by_cases hk : e.name = k
      · simp [lastVal, hl, hk]
      · have hk' : ¬(k = e.name) := fun h => hk h.symm
        simp [lastVal, hl, hk, hk']

theorem lastVal_none : ∀ (doc : List Entry) (k : String),
    (∀ e ∈ doc, e.name ≠ k) → lastVal doc k = none := by
  intro doc k h
  induction doc with
  | nil => rfl
  | cons e es ih =>
    simp only [lastVal, ih (fun x hx => h x (by simp [hx]))]
    simp [h e (by simp)]

theorem lastVal_unique : ∀ (doc : List Entry) (e : Entry), e ∈ doc →
    (doc.map (fun x => x.name)).Nodup → lastVal doc e.name = some (evalE e.val) := by
  intro doc
  induction doc with
  | nil => intro e h; simp at h
  | cons x xs ih =>
    intro e he hnd
    have hnd' : (xs.map (fun x => x.name)).Nodup := by
      simp only [List.map_cons, List.nodup_cons] at hnd
      exact hnd.2
    rcases List.mem_cons.mp he with hex | hexs
    · subst hex
      have hnone : lastVal xs e.name = none := by
        apply lastVal_none
        intro y hy hyne
        simp only [List.map_cons, List.nodup_cons] at hnd
        exact hnd.1 (by rw [← hyne]; exact List.mem_map_of_mem _ hy)
      simp [lastVal, hnone]
    · simp [lastVal, ih e hexs hnd']

theorem getLast?_cons_form : ∀ (l : List Entry) (a : Entry),
    (a :: l).getLast? = match l.getLast? with | some x => some x | none => some a := by
  intro l
  induction l with
  | nil => intro a; rfl
  | cons b t ih =>
    intro a
    rw [List.getLast?_cons_cons]
    have hb := ih b
    cases hl : (b :: t).getLast? with
    | some x => simp
    | none =>
      rw [hl] at hb
      cases ht : t.getLast? with
      | some y => rw [ht] at hb; simp at hb
      | none => rw [ht] at hb; simp at hb

theorem lastVal_filter_getLast : ∀ (doc : List Entry) (k : String),
    lastVal doc k
      = ((doc.filter (fun e => e.name = k)).getLast?).map (fun e => evalE e.val) := by
  intro doc k
  induction doc with
  | nil => rfl
  | cons e es ih =>
    simp only [lastVal, ih]
    by_cases hek : e.name = k
    · rw [List.filter_cons_of_pos (by simpa using hek), getLast?_cons_form]
      cases hl : (es.filter (fun e2 => e2.name = k)).getLast? with
      | some x => simp [hl]
      | none => simp [hl, hek]
    · rw [List.filter_cons_of_neg (by simpa using hek)]
      cases hl : (es.filter (fun e2 => e2.name = k)).getLast? with
      | some x => simp [hl]
      | none => simp [hl, hek]

/-! #### Duplicate-key defects -/

theorem dupErrsOf_mem : ∀ (doc : List Entry) (p : ParsedDoc) (k : String),
    (2 ≤ (doc.filter (fun e => e.name = k)).length
      ∨ (containsKey p k = true ∧ 1 ≤ (doc.filter (fun e => e.name = k)).length)) →
    ("Duplicate key '" ++ k ++ "'") ∈ dupErrsOf p doc := by
  intro doc
  induction doc with
  | nil =>
    intro p k h
    simp at h
  | cons e es ih =>
    intro p k h
    by_cases hek : e.name = k
    · by_cases hck : containsKey p k = true
      · simp only [dupErrsOf]
        apply List.mem_append_left
        rw [hek, if_pos hck]
        simp
      · have h2 : 2 ≤ ((e :: es).filter (fun e2 => e2.name = k)).length := by
          rcases h with h | h
          · exact h
          · exact absurd h.1 hck
        rw [List.filter_cons_of_pos (by simpa using hek)] at h2
        simp only [List.length_cons] at h2
        simp only [dupErrsOf]
        apply List.mem_append_right
        apply ih
        right
        constructor
        · exact (containsKey_insert p e.name k (evalE e.val)).mpr (Or.inl hek.symm)
        · omega
    · rw [List.filter_cons_of_neg (by simpa using hek)] at h
      simp only [dupErrsOf]
      apply List.mem_append_right
      apply ih
      rcases h with h | h
      · exact Or.inl h
      · refine Or.inr ⟨?_, h.2⟩
        exact (containsKey_insert p e.name k (evalE e.val)).mpr (Or.inr h.1)

theorem dupErrsOf_nil_of_distinct : ∀ (doc : List Entry) (p : ParsedDoc),
    (∀ e ∈ doc, containsKey p e.name = false) →
    (doc.map (fun e => e.name)).Nodup → dupErrsOf p doc = [] := by
  intro doc
  induction doc with
  | nil => intro p _ _; rfl
  | cons e es ih =>
    intro p hck hnd
    simp only [List.map_cons, List.nodup_cons] at hnd
    have h0 : containsKey p e.name = false := hck e (by simp)
    simp only [dupErrsOf, h0]
    rw [if_neg (by simp : ¬(false = true)), List.nil_append]
    apply ih
    · intro x hx
      cases hcx : containsKey (pyDictInsert p e.name (evalE e.val)) x.name with
      | false => rfl
      | true =>
        rcases (containsKey_insert p e.name x.name (evalE e.val)).mp hcx with h1 | h1
        · exact absurd (h1 ▸ List.mem_map_of_mem (fun y => y.name) hx) hnd.1
        · rw [hck x (by simp [hx])] at h1
          exact absurd h1 (by simp)
    · exact hnd.2

/-! #### Keys present after folding in a document -/

theorem containsKey_foldIns_of_mem : ∀ (doc : List Entry) (p : ParsedDoc) (e : Entry),
    e ∈ doc → containsKey (foldIns p doc) e.name = true := by
  intro doc
  induction doc with
  | nil => intro p e h; simp at h
  | cons x xs ih =>
    intro p e he
    rcases List.mem_cons.mp he with hex | hexs
    · subst hex
      rw [containsKey_iff_getP, pyGetP_foldIns]
      cases hl : lastVal xs e.name with
      | some v => simp [lastVal, hl]
      | none => simp [lastVal, hl]
    · exact ih _ e hexs

theorem mem_keys_foldIns : ∀ (doc : List Entry) (p : ParsedDoc) (q : String × PVal),
    q ∈ foldIns p doc → q.1 ∈ p.map (fun x => x.1) ∨ q.1 ∈ doc.map (fun e => e.name) := by
  intro doc
  induction doc with
  | nil =>
    intro p q hq
    exact Or.inl (List.mem_map_of_mem _ hq)
  | cons e es ih =>
    intro p q hq
    rcases ih _ q hq with h1 | h1
    · -- q.1 is a key of pyDictInsert p e.name _, hence of p or e.name
      unfold pyDictInsert at h1
      by_cases hc : p.any (fun x => x.1 = e.name) = true
      · rw [if_pos hc] at h1
        obtain ⟨x, hx, hxq⟩ := List.mem_map.mp h1
        obtain ⟨y, hy, hyx⟩ := List.mem_map.mp hx
        by_cases hyk : y.1 = e.name
        · rw [if_pos hyk] at hyx
          right
          simp [← hxq, ← hyx]
        · rw [if_neg hyk] at hyx
          left
          rw [← hxq, ← hyx]
          exact List.mem_map_of_mem _ hy
      · rw [if_neg hc] at h1
        obtain ⟨x, hx, hxq⟩ := List.mem_map.mp h1
        rcases List.mem_append.mp hx with h2 | h2
        · left
          rw [← hxq]
          exact List.mem_map_of_mem _ h2
        · right
          simp at h2
          simp [← hxq, h2]
    · right
      simp [h1]

/-! #### Order-pass and comment facts for rendered lines -/

theorem seenOrder_append (a b : List String) :
    seenOrder (a ++ b) = seenOrder a ++ seenOrder b :=
  List.filterMap_append a b _

theorem orderPassErrs_append (a b : List String) :
    orderPassErrs (a ++ b) = orderPassErrs a ++ orderPassErrs b :=
  List.filterMap_append a b _

theorem scalar_shaped_line_order (n v : String) (hstrip : pyStrip n = n) (hne : n ≠ "")
    (hcolon : sContainsChar n ':' = false) (hv : pyStrip v = v) :
    seenOrder [n ++ ": " ++ v] = [n] ∧ orderPassErrs [n ++ ": " ++ v] = [] := by
  have hsp := scalar_line_startsSpace v hstrip hne
  have hco := scalar_line_containsColon n v
  have hkey := scalar_line_keyOf v hstrip hcolon
  constructor
  · simp [seenOrder, hsp, hco, hkey]
  · simp [orderPassErrs, hsp, hco]

theorem items_key_line_order (n : String) (hstrip : pyStrip n = n) (hne : n ≠ "")
    (hcolon : sContainsChar n ':' = false) :
    seenOrder [n ++ ":"] = [n] ∧ orderPassErrs [n ++ ":"] = [] := by
  have hsp : sStartsWith (n ++ ":") " " = false := append_startsSpace _ hstrip hne
  have hco : sContainsChar (n ++ ":") ':' = true := by
    simp only [sContainsChar, String.data_append, data_colon]
    exact contains_colon_append n.data []
  have hkv := keyline_facts n hstrip hcolon
  constructor
  · simp [seenOrder, hsp, hco, hkv.1]
  · simp [orderPassErrs, hsp, hco]

theorem item_lines_order (l : List String) :
    seenOrder (l.map (fun it => "  - " ++ it)) = []
    ∧ orderPassErrs (l.map (fun it => "  - " ++ it)) = [] := by
  induction l with
  | nil => exact ⟨rfl, rfl⟩
  | cons it its ih =>
    have hsp := item_line_startsSpace it
    have hds := item_line_dashSpace it
    have hs1 : seenOrder (("  - " ++ it) :: its.map (fun i2 => "  - " ++ i2))
        = seenOrder [("  - " ++ it)] ++ seenOrder (its.map fun i2 => "  - " ++ i2) :=
      seenOrder_append [("  - " ++ it)] _
    have ho1 : orderPassErrs (("  - " ++ it) :: its.map (fun i2 => "  - " ++ i2))
        = orderPassErrs [("  - " ++ it)] ++ orderPassErrs (its.map fun i2 => "  - " ++ i2) :=
      orderPassErrs_append [("  - " ++ it)] _
    constructor
    · rw [List.map_cons, hs1, ih.1]
      simp [seenOrder, hsp]
    · rw [List.map_cons, ho1, ih.2]
      simp [orderPassErrs, hsp, hds]

theorem entry_order_facts (e : Entry) (hwf : wfEntryB e = true) :
    seenOrder (entryLines e) = [e.name] ∧ orderPassErrs (entryLines e) = [] := by
  have hk := goodKeyB_spec (wfEntryB_name hwf)
  cases hv : e.val with
  | scalar v =>
    have hgv : goodScalarB v = true := by
      simp only [wfEntryB, hv, Bool.and_eq_true] at hwf
      exact hwf.2
    simp only [entryLines, hv]
    exact scalar_shaped_line_order e.name v hk.1 hk.2.2.1 hk.2.1 (goodScalarB_spec hgv).1
  | emptyArr =>
    simp only [entryLines, hv]
    exact scalar_shaped_line_order e.name "[]" hk.1 hk.2.2.1 hk.2.1 (by rfl)
  | items l =>
    simp only [entryLines, hv]
    have hkey := items_key_line_order e.name hk.1 hk.2.2.1 hk.2.1
    have hitems := item_lines_order l
    have hseen : seenOrder ((e.name ++ ":") :: l.map (fun it => "  - " ++ it))
        = seenOrder [e.name ++ ":"] ++ seenOrder (l.map (fun it => "  - " ++ it)) :=
      seenOrder_append [e.name ++ ":"] _
    have hord : orderPassErrs ((e.name ++ ":") :: l.map (fun it => "  - " ++ it))
        = orderPassErrs [e.name ++ ":"] ++ orderPassErrs (l.map (fun it => "  - " ++ it)) :=
      orderPassErrs_append [e.name ++ ":"] _
    rw [hseen, hord, hkey.1, hkey.2, hitems.1, hitems.2]
    exact ⟨rfl, rfl⟩

theorem render_order_facts : ∀ (doc : List Entry), (∀ e ∈ doc, wfEntryB e = true) →
    seenOrder (renderLines doc) = doc.map (fun e => e.name)
    ∧ orderPassErrs (renderLines doc) = [] := by
  intro doc
  induction doc with
  | nil => intro _; exact ⟨rfl, rfl⟩
  | cons e es ih =>
    intro hwf
    have he := entry_order_facts e (hwf e (by simp))
    have hes := ih (fun x hx => hwf x (by simp [hx]))
    rw [renderLines_cons]
    rw [seenOrder_append, orderPassErrs_append, he.1, he.2, hes.1, hes.2]
    exact ⟨rfl, rfl⟩

/-! #### Blank/comment facts for rendered lines -/

theorem entry_comment_facts (e : Entry) (hwf : wfEntryB e = true) :
    ∀ ln ∈ entryLines e, sStartsWith (pyStrip ln) "#" = false ∧ pyStrip ln ≠ "" := by
  have hk := goodKeyB_spec (wfEntryB_name hwf)
  cases hv : e.val with
  | scalar v =>
    have hs := goodScalarB_spec (by
      simp only [wfEntryB, hv, Bool.and_eq_true] at hwf
      exact hwf.2)
    intro ln hln
    simp only [entryLines, hv, List.mem_singleton] at hln
    subst hln
    rw [String.append_assoc]
    apply append_hash_strip_false _ hk.1 hk.2.2.1 hk.2.2.2.2
    obtain ⟨c, t, hd, hc⟩ := strip_fix_last hs.1 hs.2.1
    exact ⟨c, t ++ [' ', ':'], by simp [data_colonSpace, hd], hc⟩
  | emptyArr =>
    intro ln hln
    simp only [entryLines, hv, List.mem_singleton] at hln
    subst hln
    rw [String.append_assoc]
    apply append_hash_strip_false _ hk.1 hk.2.2.1 hk.2.2.2.2
    exact ⟨']', ['[', ' ', ':'], by rfl, by rfl⟩
  | items l =>
    have hgl : ∀ it ∈ l, goodItemB it = true := by
      simp only [wfEntryB, hv, Bool.and_eq_true, List.all_eq_true] at hwf
      exact fun it hx => hwf.2 it hx
    intro ln hln
    simp only [entryLines, hv, List.mem_cons] at hln
    rcases hln with hln | hln
    · subst hln
      apply append_hash_strip_false _ hk.1 hk.2.2.1 hk.2.2.2.2
      exact ⟨':', [], by rfl, by rfl⟩
    · obtain ⟨it, hit, hln⟩ := List.mem_map.mp hln
      subst hln
      have hi := goodItemB_spec (hgl it hit)
      exact item_line_comment_facts hi.1 hi.2

theorem render_comment_facts : ∀ (doc : List Entry), (∀ e ∈ doc, wfEntryB e = true) →
    ∀ ln ∈ renderLines doc, sStartsWith (pyStrip ln) "#" = false ∧ pyStrip ln ≠ "" := by
  intro doc
  induction doc with
  | nil => intro _ ln hln; simp [renderLines] at hln
  | cons e es ih =>
    intro hwf ln hln
    rw [renderLines_cons] at hln
    rcases List.mem_append.mp hln with h | h
    · exact entry_comment_facts e (hwf e (by simp)) ln h
    · exact ih (fun x hx => hwf x (by simp [hx])) ln h

theorem commentErrs_render (doc : List Entry) (hwf : ∀ e ∈ doc, wfEntryB e = true) :
    commentErrs (renderLines doc) = [] := by
  have hfacts := render_comment_facts doc hwf
  rw [commentErrs, if_neg]
  simp only [List.any_eq_true, not_exists]
  intro ln
  intro hc
  rcases hc with ⟨hln, hc⟩
  rw [(hfacts ln hln).1] at hc
  exact absurd hc (by simp)

/-- The full parse (`_parse_yaml_subset`) of a rendered well-formed
document. -/
theorem parseLines_render (doc : List Entry) (hwf : ∀ e ∈ doc, wfEntryB e = true) :
    parseLines (renderLines doc) = (foldIns [] doc, dupErrsOf [] doc) := by
  unfold parseLines parseGo
  rw [commentErrs_render doc hwf]
  rw [parseGoF_render doc _ [] [] hwf (le_refl _)]
  simp

/-! #### From line lists back to raw text -/

/-- Join lines into a newline-terminated text, as the model output would
arrive at `validate_structural`. -/
def joinNL : List String → String
  | [] => ""
  | l :: ls => l ++ "\n" ++ joinNL ls

/-- No character of the string is a line-break character. -/
def strSafeB (s : String) : Bool :=
  s.data.all (fun c => !(c == '\n') && !(c == '\r'))

theorem strSafeB_spec {s : String} (h : strSafeB s = true) :
    ∀ c ∈ s.data, c ≠ '\n' ∧ c ≠ '\r' := by
  intro c hc
  have := (List.all_eq_true.mp h) c hc
  simp only [Bool.and_eq_true, Bool.not_eq_true', beq_eq_false_iff_ne] at this
  exact this

theorem splitLinesAux_append : ∀ (l : List Char) (r : List Char) (acc : List Char),
    (∀ c ∈ l, c ≠ '\n' ∧ c ≠ '\r') →
    splitLinesAux (l ++ '\n' :: r) acc = (acc.reverse ++ l) :: splitLinesAux r [] := by
  intro l
  induction l with
  | nil =>
    intro r acc _
    simp [splitLinesAux]
  | cons c cs ih =>
    intro r acc hsafe
    have hc := hsafe c (by simp)
    rw [List.cons_append]
    rw [show splitLinesAux (c :: (cs ++ '\n' :: r)) acc
        = splitLinesAux (cs ++ '\n' :: r) (c :: acc) by
      simp [splitLinesAux, hc.1, hc.2]]
    rw [ih r (c :: acc) (fun x hx => hsafe x (by simp [hx]))]
    simp

theorem splitLines_joinNL : ∀ lines : List String,
    (∀ ln ∈ lines, strSafeB ln = true) → splitLines (joinNL lines) = lines := by
  intro lines
  induction lines with
  | nil => intro _; rfl
  | cons l ls ih =>
    intro hsafe
    have hdata : (joinNL (l :: ls)).data = l.data ++ '\n' :: (joinNL ls).data := by
      show ((l ++ "\n") ++ joinNL ls).data = _
      simp
    unfold splitLines
    rw [hdata, splitLinesAux_append l.data _ [] (strSafeB_spec (hsafe l (by simp)))]
    simp only [List.reverse_nil, List.nil_append, List.map_cons, str_mk_data]
    rw [show (splitLinesAux (joinNL ls).data []).map (fun x => (⟨x⟩ : String))
        = splitLines (joinNL ls) from rfl]
    rw [ih (fun x hx => hsafe x (by simp [hx]))]

theorem rstripCRLF_of_safe {ln : String} (h : strSafeB ln = true) : rstripCRLF ln = ln := by
  have hall : ∀ c ∈ ln.data.reverse, (fun c => c = '\r' || c = '\n') c = false := by
    intro c hc
    have := strSafeB_spec h c (List.mem_reverse.mp hc)
    simp [this.1, this.2]
  show (⟨(ln.data.reverse.dropWhile _).reverse⟩ : String) = ln
  rw [dropWhile_eq_self_of_all ln.data.reverse hall, List.reverse_reverse, str_mk_data]

theorem linesNB_joinNL (lines : List String)
    (hsafe : ∀ ln ∈ lines, strSafeB ln = true)
    (hnb : ∀ ln ∈ lines, pyStrip ln ≠ "") :
    linesNB (joinNL lines) = lines := by
  unfold linesNB
  rw [splitLines_joinNL lines hsafe]
  rw [List.map_congr_left (fun ln hln => rstripCRLF_of_safe (hsafe ln hln))]
  rw [List.map_id']
  rw [List.filter_eq_self.mpr]
  intro ln hln
  simp [hnb ln hln]

/-- Structural validation of joined rendered text agrees with the
line-level validator. -/
theorem validateStructural_joinNL (lines : List String)
    (hsafe : ∀ ln ∈ lines, strSafeB ln = true)
    (hnb : ∀ ln ∈ lines, pyStrip ln ≠ "") :
    validateStructural (joinNL lines) = validateStructuralLines lines := by
  unfold validateStructural
  rw [linesNB_joinNL lines hsafe hnb]

/-! #### Structural validation of a permuted conforming document -/

theorem usedSourcesItemErrs_nil : ∀ (i : Nat) (l : List String),
    (∀ it ∈ l, goodItemB it = true) → usedSourcesItemErrs i l = [] := by
  intro i l
  induction l generalizing i with
  | nil => intro _; rfl
  | cons it its ih =>
    intro h
    have hi := goodItemB_spec (h it (by simp))
    simp only [usedSourcesItemErrs, hi.1]
    rw [if_neg hi.2, List.nil_append]
    exact ih (i + 1) (fun x hx => h x (by simp [hx]))

/-- The four canonical entries of a conforming document. -/
def confDoc (D C : String) (srcs : List String) : List Entry :=
  [⟨"suggested_description", .scalar D⟩, ⟨"confidence", .scalar C⟩,
   ⟨"used_sources", .items srcs⟩, ⟨"warnings", .emptyArr⟩]

/-- Structural validation of any reordering of a conforming document
reduces to the field-order comparison: everything else passes, and an
order mismatch contributes exactly the single order-violation error. -/
theorem structural_of_perm (D C : String) (srcs : List String) (doc : List Entry)
    (hD : goodScalarB D = true) (hC : goodScalarB C = true)
    (hsrcs : ∀ it ∈ srcs, goodItemB it = true) (hne : srcs ≠ [])
    (hperm : doc.Perm (confDoc D C srcs)) :
    validateStructuralLines (renderLines doc)
      = if doc.map (fun e => e.name) = EXPECTED_ORDER then ValidationResult.valid
        else ValidationResult.invalidStructural [orderErrMsg] := by
  have hwfdoc : ∀ e ∈ doc, wfEntryB e = true := by
    intro e he
    have hb : e ∈ confDoc D C srcs := hperm.mem_iff.mp he
    simp only [confDoc] at hb
    rw [List.mem_cons, List.mem_cons, List.mem_cons, List.mem_singleton] at hb
    rcases hb with h | h | h | h <;> subst h
    · show (goodKeyB "suggested_description" && goodScalarB D) = true
      rw [Bool.and_eq_true]
      exact ⟨by decide, hD⟩
    · show (goodKeyB "confidence" && goodScalarB C) = true
      rw [Bool.and_eq_true]
      exact ⟨by decide, hC⟩
    · show (goodKeyB "used_sources" && srcs.all goodItemB) = true
      rw [Bool.and_eq_true]
      exact ⟨by decide, by simpa [List.all_eq_true] using hsrcs⟩
    · show (goodKeyB "warnings" && true) = true
      rw [Bool.and_true]
      decide
  have hnamesperm : (doc.map (fun e => e.name)).Perm
      ["suggested_description", "confidence", "used_sources", "warnings"] := by
    have := hperm.map (fun e => e.name)
    simpa [confDoc] using this
  have hnodup : (doc.map (fun e => e.name)).Nodup :=
    hnamesperm.nodup_iff.mpr (by decide)
  have hmem1 : (⟨"suggested_description", EVal.scalar D⟩ : Entry) ∈ doc :=
    hperm.mem_iff.mpr (by simp [confDoc])
  have hmem2 : (⟨"confidence", EVal.scalar C⟩ : Entry) ∈ doc :=
    hperm.mem_iff.mpr (by simp [confDoc])
  have hmem3 : (⟨"used_sources", EVal.items srcs⟩ : Entry) ∈ doc :=
    hperm.mem_iff.mpr (by simp [confDoc])
  have hmem4 : (⟨"warnings", EVal.emptyArr⟩ : Entry) ∈ doc :=
    hperm.mem_iff.mpr (by simp [confDoc])
  have hget : ∀ e ∈ doc, pyGetP (foldIns [] doc) e.name = some (evalE e.val) := by
    intro e he
    rw [pyGetP_foldIns, lastVal_unique doc e he hnodup]
  have hg1 : pyGetP (foldIns [] doc) "suggested_description"
      = some (PVal.str (stripQuotes D)) := hget _ hmem1
  have hg2 : pyGetP (foldIns [] doc) "confidence"
      = some (PVal.str (stripQuotes C)) := hget _ hmem2
  have hsrcsne : srcs.isEmpty = false := by
    cases srcs with
    | nil => exact absurd rfl hne
    | cons a t => rfl
  have hg3 : pyGetP (foldIns [] doc) "used_sources" = some (PVal.arr srcs) := by
    have := hget _ hmem3
    simpa [evalE, hsrcsne] using this
  have hg4 : pyGetP (foldIns [] doc) "warnings" = some (PVal.arr []) := hget _ hmem4
  have hck1 := containsKey_foldIns_of_mem doc [] _ hmem1
  have hck2 := containsKey_foldIns_of_mem doc [] _ hmem2
  have hck3 := containsKey_foldIns_of_mem doc [] _ hmem3
  have hck4 := containsKey_foldIns_of_mem doc [] _ hmem4
  have hdup : dupErrsOf [] doc = [] :=
    dupErrsOf_nil_of_distinct doc [] (fun _ _ => rfl) hnodup
  have hunknown : (foldIns [] doc).filterMap (fun p =>
      if !REQUIRED_FIELDS.contains p.1 && !OPTIONAL_FIELDS.contains p.1 then
        some ("Unknown field '" ++ p.1 ++ "' not permitted by contract")
      else none) = [] := by
    rw [List.filterMap_eq_nil_iff]
    intro q hq
    have hmem := mem_keys_foldIns doc [] q hq
    simp only [List.map_nil] at hmem
    rcases hmem with h | h
    · simp at h
    · have h2 : q.1 ∈ (["suggested_description", "confidence", "used_sources",
          "warnings"] : List String) := hnamesperm.mem_iff.mp h
      rw [List.mem_cons, List.mem_cons, List.mem_cons, List.mem_singleton] at h2
      rcases h2 with h2 | h2 | h2 | h2 <;> rw [h2] <;> rfl
  have hmissing : REQUIRED_FIELDS.filterMap (fun k =>
      if !containsKey (foldIns [] doc) k then
        some ("Missing required field '" ++ k ++ "'")
      else none) = [] := by
    simp only [REQUIRED_FIELDS, List.filterMap_cons, hck1, hck2, hck3]
    rfl
  have htype : typeErrs (foldIns [] doc) = [] := by
    simp only [typeErrs, hg1, hg2, hg3, hg4]
    rw [if_neg (by simpa [List.length_eq_zero] using hne)]
    rw [usedSourcesItemErrs_nil 0 srcs hsrcs]
    rfl
  have horder := render_order_facts doc hwfdoc
  have hexpected : EXPECTED_ORDER.filter (fun k => containsKey (foldIns [] doc) k)
      = EXPECTED_ORDER := by
    simp only [EXPECTED_ORDER, List.filter_cons, hck1, hck2, hck3, hck4]
    rfl
  unfold validateStructuralLines
  rw [parseLines_render doc hwfdoc]
  simp only [structuralErrsOf, hdup, hunknown, hmissing, htype, horder.1, horder.2,
    hexpected, List.nil_append, List.append_nil]
  by_cases hord : doc.map (fun e => e.name) = EXPECTED_ORDER
  · simp [hord]
  · simp [hord]

/-! #### Line-break safety of rendered lines -/

def entrySafeB (e : Entry) : Bool :=
  strSafeB e.name &&
    (match e.val with
     | .scalar v => strSafeB v
     | .items l => l.all strSafeB
     | .emptyArr => true)

theorem strSafeB_append (a b : String) : strSafeB (a ++ b) = (strSafeB a && strSafeB b) := by
  simp [strSafeB, List.all_append]

theorem render_safe : ∀ doc : List Entry, (∀ e ∈ doc, entrySafeB e = true) →
    ∀ ln ∈ renderLines doc, strSafeB ln = true := by
  intro doc
  induction doc with
  | nil => intro _ ln hln; simp [renderLines] at hln
  | cons e es ih =>
    intro hsafe ln hln
    rw [renderLines_cons] at hln
    rcases List.mem_append.mp hln with h | h
    · have he := hsafe e (by simp)
      cases hv : e.val with
      | scalar v =>
        simp only [entryLines, hv, List.mem_singleton] at h
        subst h
        have he2 : strSafeB e.name = true ∧ strSafeB v = true := by
          simp only [entrySafeB, hv, Bool.and_eq_true] at he
          exact he
        rw [strSafeB_append, strSafeB_append, he2.1, he2.2]
        rfl
      | emptyArr =>
        simp only [entryLines, hv, List.mem_singleton] at h
        subst h
        have he2 : strSafeB e.name = true := by
          simp only [entrySafeB, hv, Bool.and_eq_true] at he
          exact he.1
        rw [strSafeB_append, strSafeB_append, he2]
        rfl
      | items l =>
        have he2 : strSafeB e.name = true ∧ ∀ it ∈ l, strSafeB it = true := by
          simp only [entrySafeB, hv, Bool.and_eq_true, List.all_eq_true] at he
          exact ⟨he.1, fun it hx => he.2 it hx⟩
        simp only [entryLines, hv, List.mem_cons] at h
        rcases h with h | h
        · subst h
          rw [strSafeB_append, he2.1]
          rfl
        · obtain ⟨it, hit, hln2⟩ := List.mem_map.mp h
          subst hln2
          rw [strSafeB_append, he2.2 it hit]
          rfl
    · exact ih (fun x hx => hsafe x (by simp [hx])) ln h

/-! #### Generic transposition permutations of four-entry lists -/

theorem perm_swap01 (a b c d : Entry) : ([b, a, c, d] : List Entry).Perm [a, b, c, d] :=
  List.Perm.swap a b [c, d]

theorem perm_swap12 (a b c d : Entry) : ([a, c, b, d] : List Entry).Perm [a, b, c, d] :=
  List.Perm.cons a (List.Perm.swap b c [d])

theorem perm_swap23 (a b c d : Entry) : ([a, b, d, c] : List Entry).Perm [a, b, c, d] :=
  List.Perm.cons a (List.Perm.cons b (List.Perm.swap c d []))

theorem perm_swap02 (a b c d : Entry) : ([c, b, a, d] : List Entry).Perm [a, b, c, d] :=
  ((List.Perm.swap b c [a, d]).trans
    (List.Perm.cons b (List.Perm.swap a c [d]))).trans (List.Perm.swap a b [c, d])

theorem perm_swap03 (a b c d : Entry) : ([d, b, c, a] : List Entry).Perm [a, b, c, d] :=
  ((((List.Perm.swap b d [c, a]).trans
    (List.Perm.cons b (List.Perm.swap c d [a]))).trans
    (List.Perm.cons b (List.Perm.cons c (List.Perm.swap a d [])))).trans
    (List.Perm.cons b (List.Perm.swap a c [d]))).trans (List.Perm.swap a b [c, d])

theorem perm_swap13 (a b c d : Entry) : ([a, d, c, b] : List Entry).Perm [a, b, c, d] :=
  List.Perm.cons a (((List.Perm.swap c d [b]).trans
    (List.Perm.cons c (List.Perm.swap b d []))).trans (List.Perm.swap b c [d]))

/-! #### Permuted conforming documents, validated from raw text -/

theorem entrySafe_of_perm (D C : String) (srcs : List String) (doc : List Entry)
    (hDs : strSafeB D = true) (hCs : strSafeB C = true)
    (hsrcss : ∀ it ∈ srcs, strSafeB it = true)
    (hperm : doc.Perm (confDoc D C srcs)) : ∀ e ∈ doc, entrySafeB e = true := by
  intro e he
  have hb : e ∈ confDoc D C srcs := hperm.mem_iff.mp he
  simp only [confDoc] at hb
  rw [List.mem_cons, List.mem_cons, List.mem_cons, List.mem_singleton] at hb
  rcases hb with h | h | h | h <;> subst h
  · show (strSafeB "suggested_description" && strSafeB D) = true
    rw [Bool.and_eq_true]
    exact ⟨by decide, hDs⟩
  · show (strSafeB "confidence" && strSafeB C) = true
    rw [Bool.and_eq_true]
    exact ⟨by decide, hCs⟩
  · show (strSafeB "used_sources" && srcs.all strSafeB) = true
    rw [Bool.and_eq_true]
    exact ⟨by decide, by simpa [List.all_eq_true] using hsrcss⟩
  · show (strSafeB "warnings" && true) = true
    rw [Bool.and_true]
    decide

theorem wfdoc_of_perm (D C : String) (srcs : List String) (doc : List Entry)
    (hD : goodScalarB D = true) (hC : goodScalarB C = true)
    (hsrcs : ∀ it ∈ srcs, goodItemB it = true)
    (hperm : doc.Perm (confDoc D C srcs)) : ∀ e ∈ doc, wfEntryB e = true := by
  intro e he
  have hb : e ∈ confDoc D C srcs := hperm.mem_iff.mp he
  simp only [confDoc] at hb
  rw [List.mem_cons, List.mem_cons, List.mem_cons, List.mem_singleton] at hb
  rcases hb with h | h | h | h <;> subst h
  · show (goodKeyB "suggested_description" && goodScalarB D) = true
    rw [Bool.and_eq_true]
    exact ⟨by decide, hD⟩
  · show (goodKeyB "confidence" && goodScalarB C) = true
    rw [Bool.and_eq_true]
    exact ⟨by decide, hC⟩
  · show (goodKeyB "used_sources" && srcs.all goodItemB) = true
    rw [Bool.and_eq_true]
    exact ⟨by decide, by simpa [List.all_eq_true] using hsrcs⟩
  · show (goodKeyB "warnings" && true) = true
    rw [Bool.and_true]
    decide

/-- Raw-text structural validation of a reordered conforming document. -/
theorem validateStructural_perm (D C : String) (srcs : List String) (doc : List Entry)
    (hD : goodScalarB D = true) (hC : goodScalarB C = true)
    (hsrcs : ∀ it ∈ srcs, goodItemB it = true) (hne : srcs ≠ [])
    (hDs : strSafeB D = true) (hCs : strSafeB C = true)
    (hsrcss : ∀ it ∈ srcs, strSafeB it = true)
    (hperm : doc.Perm (confDoc D C srcs)) :
    validateStructural (joinNL (renderLines doc))
      = if doc.map (fun e => e.name) = EXPECTED_ORDER then ValidationResult.valid
        else ValidationResult.invalidStructural [orderErrMsg] := by
  have hwfdoc := wfdoc_of_perm D C srcs doc hD hC hsrcs hperm
  rw [validateStructural_joinNL _
    (render_safe doc (entrySafe_of_perm D C srcs doc hDs hCs hsrcss hperm))
    (fun ln hln => (render_comment_facts doc hwfdoc ln hln).2)]
  exact structural_of_perm D C srcs doc hD hC hsrcs hne hperm

/-- The six documents obtained from the conforming document by swapping
two entries. -/
def swapsOf (D C : String) (srcs : List String) : List (List Entry) :=
  [[⟨"confidence", .scalar C⟩, ⟨"suggested_description", .scalar D⟩,
    ⟨"used_sources", .items srcs⟩, ⟨"warnings", .emptyArr⟩],
   [⟨"used_sources", .items srcs⟩, ⟨"confidence", .scalar C⟩,
    ⟨"suggested_description", .scalar D⟩, ⟨"warnings", .emptyArr⟩],
   [⟨"warnings", .emptyArr⟩, ⟨"confidence", .scalar C⟩,
    ⟨"used_sources", .items srcs⟩, ⟨"suggested_description", .scalar D⟩],
   [⟨"suggested_description", .scalar D⟩, ⟨"used_sources", .items srcs⟩,
    ⟨"confidence", .scalar C⟩, ⟨"warnings", .emptyArr⟩],
   [⟨"suggested_description", .scalar D⟩, ⟨"warnings", .emptyArr⟩,
    ⟨"used_sources", .items srcs⟩, ⟨"confidence", .scalar C⟩],
   [⟨"suggested_description", .scalar D⟩, ⟨"confidence", .scalar C⟩,
    ⟨"warnings", .emptyArr⟩, ⟨"used_sources", .items srcs⟩]]

/-- C5: for every conforming document (well-formed description, confidence,
non-empty sources), the canonical field order validates structurally, and
every document obtained by swapping the relative order of two present
catalog fields is rejected with exactly one order-violation error. -/
theorem C5_order_violation :
    ∀ (D C : String) (srcs : List String),
      goodScalarB D = true → goodScalarB C = true →
      (∀ it ∈ srcs, goodItemB it = true) → srcs ≠ [] →
      strSafeB D = true → strSafeB C = true → (∀ it ∈ srcs, strSafeB it = true) →
      (validateStructural (joinNL (renderLines (confDoc D C srcs))) = ValidationResult.valid)
      ∧ (∀ doc ∈ swapsOf D C srcs,
          validateStructural (joinNL (renderLines doc))
            = ValidationResult.invalidStructural [orderErrMsg]
          ∧ (validateStructural (joinNL (renderLines doc))).structural_errors.count orderErrMsg
              = 1
          ∧ (validateStructural (joinNL (renderLines doc))).is_valid = false) := by
  intro D C srcs hD hC hsrcs hne hDs hCs hsrcss
  constructor
  · rw [validateStructural_perm D C srcs _ hD hC hsrcs hne hDs hCs hsrcss (List.Perm.refl _)]
    rfl
  · intro doc hdoc
    simp only [swapsOf] at hdoc
    rw [List.mem_cons, List.mem_cons, List.mem_cons, List.mem_cons, List.mem_cons,
      List.mem_singleton] at hdoc
    have hfin : validateStructural (joinNL (renderLines doc))
        = ValidationResult.invalidStructural [orderErrMsg] := by
      rcases hdoc with h | h | h | h | h | h <;> subst h
      · rw [validateStructural_perm D C srcs _ hD hC hsrcs hne hDs hCs hsrcss
          (perm_swap01 _ _ _ _)]
        simp only [List.map_cons, List.map_nil]
        rw [if_neg (by decide)]
      · rw [validateStructural_perm D C srcs _ hD hC hsrcs hne hDs hCs hsrcss
          (perm_swap02 _ _ _ _)]
        simp only [List.map_cons, List.map_nil]
        rw [if_neg (by decide)]
      · rw [validateStructural_perm D C srcs _ hD hC hsrcs hne hDs hCs hsrcss
          (perm_swap03 _ _ _ _)]
        simp only [List.map_cons, List.map_nil]
        rw [if_neg (by decide)]
      · rw [validateStructural_perm D C srcs _ hD hC hsrcs hne hDs hCs hsrcss
          (perm_swap12 _ _ _ _)]
        simp only [List.map_cons, List.map_nil]
        rw [if_neg (by decide)]
      · rw [validateStructural_perm D C srcs _ hD hC hsrcs hne hDs hCs hsrcss
          (perm_swap13 _ _ _ _)]
        simp only [List.map_cons, List.map_nil]
        rw [if_neg (by decide)]
      · rw [validateStructural_perm D C srcs _ hD hC hsrcs hne hDs hCs hsrcss
          (perm_swap23 _ _ _ _)]
        simp only [List.map_cons, List.map_nil]
        rw [if_neg (by decide)]
    refine ⟨hfin, ?_, ?_⟩
    · rw [hfin]
      decide
    · rw [hfin]
      rfl

/-- C5 witness: the order law instantiated at concrete field contents. -/
theorem C5_witness :
    validateStructural (joinNL (renderLines
        (confDoc "Quarterly revenue summary." "high" ["doc.pdf, Page 1"])))
      = ValidationResult.valid
    ∧ (validateStructural (joinNL (renderLines
        [⟨"confidence", .scalar "high"⟩,
         ⟨"suggested_description", .scalar "Quarterly revenue summary."⟩,
         ⟨"used_sources", .items ["doc.pdf, Page 1"]⟩,
         ⟨"warnings", .emptyArr⟩]))).is_valid = false :=
  ⟨(C5_order_violation "Quarterly revenue summary." "high" ["doc.pdf, Page 1"]
      (by decide) (by decide) (by decide) (by decide) (by decide) (by decide) (by decide)).1,
   ((C5_order_violation "Quarterly revenue summary." "high" ["doc.pdf, Page 1"]
      (by decide) (by decide) (by decide) (by decide) (by decide) (by decide) (by decide)).2
      _ (by simp [swapsOf])).2.2⟩

/-! #### Duplicate keys from raw text -/

theorem structural_invalid_of_parseErr {nb : List String} {msg : String}
    (h : msg ∈ (parseLines nb).2) :
    (validateStructuralLines nb).is_valid = false
    ∧ msg ∈ (validateStructuralLines nb).structural_errors := by
  have hmem : msg ∈ structuralErrsOf (parseLines nb) nb := by
    unfold structuralErrsOf
    exact List.mem_append_left _ (List.mem_append_left _ (List.mem_append_left _
      (List.mem_append_left _ (List.mem_append_left _ h))))
  have hne : structuralErrsOf (parseLines nb) nb ≠ [] := by
    intro h0
    rw [h0] at hmem
    simp at hmem
  have hemp : (structuralErrsOf (parseLines nb) nb).isEmpty = false := by
    cases he : structuralErrsOf (parseLines nb) nb with
    | nil => exact absurd he hne
    | cons a t => rfl
  constructor
  · simp [validateStructuralLines, hemp, ValidationResult.invalidStructural]
  · simp only [validateStructuralLines, hemp, Bool.false_eq_true, if_false,
      ValidationResult.invalidStructural]
    exact hmem

/-- C8: for every rendered document in which the same field name heads two
or more entries, the parser records the duplicate-key defect (so the
document cannot validate structurally), and the stored value for that field
is the value derived from the LAST occurrence. -/
theorem C8_duplicate_keys :
    ∀ (doc : List Entry) (k : String),
      (∀ e ∈ doc, wfEntryB e = true) → (∀ e ∈ doc, entrySafeB e = true) →
      2 ≤ (doc.filter (fun e => e.name = k)).length →
      ("Duplicate key '" ++ k ++ "'") ∈ (parseS (joinNL (renderLines doc))).2
      ∧ (∀ e : Entry, (doc.filter (fun e2 => e2.name = k)).getLast? = some e →
          pyGetP (parseS (joinNL (renderLines doc))).1 k = some (evalE e.val))
      ∧ (validateStructural (joinNL (renderLines doc))).is_valid = false := by
  intro doc k hwf hsafe hcount
  have hlines : linesNB (joinNL (renderLines doc)) = renderLines doc :=
    linesNB_joinNL _ (render_safe doc hsafe)
      (fun ln hln => (render_comment_facts doc hwf ln hln).2)
  have hparse : parseS (joinNL (renderLines doc)) = (foldIns [] doc, dupErrsOf [] doc) := by
    unfold parseS
    rw [hlines]
    exact parseLines_render doc hwf
  have hdupmem : ("Duplicate key '" ++ k ++ "'") ∈ dupErrsOf [] doc :=
    dupErrsOf_mem doc [] k (Or.inl hcount)
  refine ⟨by rw [hparse]; exact hdupmem, ?_, ?_⟩
  · intro e he
    rw [hparse]
    show pyGetP (foldIns [] doc) k = some (evalE e.val)
    rw [pyGetP_foldIns, lastVal_filter_getLast, he]
    rfl
  · show (validateStructuralLines (linesNB (joinNL (renderLines doc)))).is_valid = false
    rw [hlines]
    exact (structural_invalid_of_parseErr (by rw [parseLines_render doc hwf]; exact hdupmem)).1

/-- C8 witness: a document with `confidence` twice keeps the second value
and carries the duplicate-key defect. -/
theorem C8_witness :
    ("Duplicate key '" ++ "confidence" ++ "'")
      ∈ (parseS (joinNL (renderLines
          [⟨"confidence", EVal.scalar "high"⟩, ⟨"confidence", EVal.scalar "low"⟩]))).2
    ∧ pyGetP (parseS (joinNL (renderLines
          [⟨"confidence", EVal.scalar "high"⟩, ⟨"confidence", EVal.scalar "low"⟩]))).1
        "confidence" = some (evalE (EVal.scalar "low")) :=
  ⟨(C8_duplicate_keys [⟨"confidence", EVal.scalar "high"⟩, ⟨"confidence", EVal.scalar "low"⟩]
      "confidence" (by decide) (by decide) (by decide)).1,
   (C8_duplicate_keys [⟨"confidence", EVal.scalar "high"⟩, ⟨"confidence", EVal.scalar "low"⟩]
      "confidence" (by decide) (by decide) (by decide)).2.1
      ⟨"confidence", EVal.scalar "low"⟩ (by decide)⟩

/-! ### Change detection: normalizer (`normalizer.py`) -/

/-- JSON-like values carried by asset metadata dictionaries. -/
inductive JVal where
  | s (v : String)
  | i (n : Int)
  | b (v : Bool)
  | null
  | arr (l : List JVal)
  | obj (o : List (String × JVal))

/-- An asset dict: insertion-ordered association list. -/
abbrev Record := List (String × JVal)

def MATERIAL_FIELDS_LIST : List String :=
  ["id", "sourceSystem", "entityType", "entityName", "entityPath", "description",
   "businessMeaning", "domain", "tags", "content", "relationships", "columns", "dataType"]

def VOLATILE_FIELDS_LIST : List String :=
  ["lastUpdated", "schemaVersion", "auditInfo", "scanId", "ingestionTime"]

/-- Python `asset.get(field)` / `field in asset`. -/
def pyGetJ (r : Record) (k : String) : Option JVal :=
  (r.find? (fun p => p.1 = k)).map (fun p => p.2)

/-- `is_volatile_field`. -/
def is_volatile_field (f : String) : Bool :=
  VOLATILE_FIELDS_LIST.contains f || sStartsWith f "_"

/-- Python's lexicographic string `<=` by code point, as an executable
comparison on character lists. -/
def strLeB : List Char → List Char → Bool
  | [], _ => true
  | _ :: _, [] => false
  | c :: cs, d :: ds =>
    if c.toNat < d.toNat then true
    else if d.toNat < c.toNat then false
    else strLeB cs ds

theorem strLeB_total : ∀ a b : List Char, strLeB a b = true ∨ strLeB b a = true := by
  intro a
  induction a with
  | nil => intro b; left; rfl
  | cons c cs ih =>
    intro b
    cases b with
    | nil => right; rfl
    | cons d ds =>
      by_cases h1 : c.toNat < d.toNat
      · left; simp [strLeB, h1]
      · by_cases h2 : d.toNat < c.toNat
        · right; simp [strLeB, h2]
        · rcases ih ds with h | h
          · left; simp [strLeB, h1, h2, h]
          · right; simp [strLeB, h1, h2, h]

theorem strLeB_trans : ∀ a b c : List Char,
    strLeB a b = true → strLeB b c = true → strLeB a c = true := by
  intro a
  induction a with
  | nil => intro b c _ _; rfl
  | cons x xs ih =>
    intro b c hab hbc
    cases b with
    | nil => simp [strLeB] at hab
    | cons y ys =>
      cases c with
      | nil => simp [strLeB] at hbc
      | cons z zs =>
        simp only [strLeB] at hab hbc ⊢
        by_cases h1 : x.toNat < y.toNat
        · by_cases h2 : y.toNat < z.toNat
          · rw [if_pos (by omega)]
          · rw [if_neg h2] at hbc
            by_cases h3 : z.toNat < y.toNat
            · rw [if_pos h3] at hbc; exact absurd hbc (by simp)
            · rw [if_pos (by omega)]
        · rw [if_neg h1] at hab
          by_cases h1b : y.toNat < x.toNat
          · rw [if_pos h1b] at hab; exact absurd hab (by simp)
          · rw [if_neg h1b] at hab
            by_cases h2 : y.toNat < z.toNat
            · rw [if_pos (by omega)]
            · rw [if_neg h2] at hbc
              by_cases h3 : z.toNat < y.toNat
              · rw [if_pos h3] at hbc; exact absurd hbc (by simp)
              · rw [if_neg h3] at hbc
                rw [if_neg (by omega), if_neg (by omega)]
                exact ih ys zs hab hbc

/-- Case-insensitive tag comparison (`key=str.lower`). -/
def tagLe (a b : String) : Prop := strLeB (lowerStr a).data (lowerStr b).data = true

instance : DecidableRel tagLe := fun a b =>
  inferInstanceAs (Decidable (strLeB (lowerStr a).data (lowerStr b).data = true))

instance : IsTotal String tagLe :=
  ⟨fun a b => strLeB_total (lowerStr a).data (lowerStr b).data⟩

instance : IsTrans String tagLe := ⟨fun _ _ _ hab hbc => strLeB_trans _ _ _ hab hbc⟩

/-- First-occurrence deduplication for tag lists.  Python's `set(tags)` has
no specified iteration order; within one process it is a function of the
element values, and the subsequent stable sort makes the result
order-canonical, so first-occurrence order is the faithful deterministic
model. -/
def dedupFirstAux (seen : List String) : List String → List String
  | [] => []
  | x :: xs =>
    if seen.contains x then dedupFirstAux seen xs
    else x :: dedupFirstAux (x :: seen) xs

def dedupFirst (l : List String) : List String := dedupFirstAux [] l

theorem contains_iff_memS {α : Type} [BEq α] [LawfulBEq α] (l : List α) (a : α) :
    l.contains a = true ↔ a ∈ l := by
  simp [List.contains, List.elem_eq_mem]

theorem dedupFirstAux_props : ∀ (l seen : List String),
    (dedupFirstAux seen l).Nodup ∧ (∀ x ∈ dedupFirstAux seen l, x ∉ seen)
    ∧ (∀ x ∈ dedupFirstAux seen l, x ∈ l) := by
  intro l
  induction l with
  | nil =>
    intro seen
    exact ⟨by simp [dedupFirstAux], by simp [dedupFirstAux], by simp [dedupFirstAux]⟩
  | cons x xs ih =>
    intro seen
    by_cases hc : seen.contains x = true
    · have h := ih seen
      simp only [dedupFirstAux, hc, if_true]
      exact ⟨h.1, h.2.1, fun y hy => by simp [h.2.2 y hy]⟩
    · have h := ih (x :: seen)
      simp only [dedupFirstAux, hc, if_false]
      rw [if_neg (by simp [hc])]
      refine ⟨?_, ?_, ?_⟩
      · rw [List.nodup_cons]
        refine ⟨fun hx => ?_, h.1⟩
        have := h.2.1 x hx
        simp at this
      · intro y hy
        rcases List.mem_cons.mp hy with hyx | hyt
        · subst hyx
          intro hmem
          exact hc ((contains_iff_memS seen y).mpr hmem)
        · have := h.2.1 y hyt
          intro hmem
          exact this (by simp [hmem])
      · intro y hy
        rcases List.mem_cons.mp hy with hyx | hyt
        · simp [hyx]
        · simp [h.2.2 y hyt]

theorem dedupFirstAux_eq_self : ∀ (l seen : List String), l.Nodup →
    (∀ x ∈ l, x ∉ seen) → dedupFirstAux seen l = l := by
  intro l
  induction l with
  | nil => intro seen _ _; rfl
  | cons x xs ih =>
    intro seen hnd hs
    rw [List.nodup_cons] at hnd
    have hc : seen.contains x = false := by
      rw [Bool.eq_false_iff]
      intro hcc
      exact hs x (by simp) ((contains_iff_memS seen x).mp hcc)
    simp only [dedupFirstAux, hc]
    rw [if_neg (by simp)]
    rw [ih (x :: seen) hnd.2]
    intro y hy
    intro hmem
    rcases List.mem_cons.mp hmem with h1 | h1
    · exact hnd.1 (h1 ▸ hy)
    · exact hs y (by simp [hy]) h1

theorem dedupFirst_nodup (l : List String) : (dedupFirst l).Nodup :=
  (dedupFirstAux_props l []).1

theorem dedupFirst_eq_self {l : List String} (h : l.Nodup) : dedupFirst l = l :=
  dedupFirstAux_eq_self l [] h (by simp)

/-- A hashable Python value usable as a `set` element: relationship/column ids
and names must be hashable or the dedup loop raises `TypeError`.  Python
treats `True == 1` and `False == 0` (same hash), so booleans collapse to
their integer values. -/
inductive HKey where
  | hs (v : String)
  | hi (n : Int)
  | hnull
  deriving DecidableEq

def hKeyOf : JVal → Option HKey
  | .s v => some (.hs v)
  | .i n => some (.hi n)
  | .b true => some (.hi 1)
  | .b false => some (.hi 0)
  | .null => some .hnull
  | _ => none

/-- `rel[field]` on an object (null if absent or not a dict; validation rules
those shapes out before this is consulted). -/
def fieldOf (field : String) (v : JVal) : JVal :=
  match v with
  | .obj o => ((o.find? (fun p => p.1 = field)).map (fun p => p.2)).getD JVal.null
  | _ => JVal.null

/-- Python's `<` on sort keys: ints compare numerically, strings
lexicographically, and an int/str pair (or `None`) is unorderable. -/
def sumLe : (Int ⊕ String) → (Int ⊕ String) → Prop
  | Sum.inl m, Sum.inl n => m ≤ n
  | Sum.inr s, Sum.inr t => s ≤ t
  | Sum.inl _, Sum.inr _ => True
  | Sum.inr _, Sum.inl _ => False

instance : DecidableRel sumLe := fun a b =>
  match a, b with
  | Sum.inl m, Sum.inl n => inferInstanceAs (Decidable (m ≤ n))
  | Sum.inr s, Sum.inr t => inferInstanceAs (Decidable (s ≤ t))
  | Sum.inl _, Sum.inr _ => Decidable.isTrue trivial
  | Sum.inr _, Sum.inl _ => Decidable.isFalse (fun h => h)

instance : IsTotal (Int ⊕ String) sumLe :=
  ⟨fun a b =>
    match a, b with
    | Sum.inl m, Sum.inl n => le_total m n
    | Sum.inr s, Sum.inr t => le_total s t
    | Sum.inl _, Sum.inr _ => Or.inl trivial
    | Sum.inr _, Sum.inl _ => Or.inr trivial⟩

instance : IsTrans (Int ⊕ String) sumLe :=
  ⟨fun a b c hab hbc =>
    match a, b, c, hab, hbc with
    | Sum.inl _, Sum.inl _, Sum.inl _, h1, h2 => le_trans h1 h2
    | Sum.inr _, Sum.inr _, Sum.inr _, h1, h2 => le_trans h1 h2
    | Sum.inl _, Sum.inl _, Sum.inr _, _, _ => trivial
    | Sum.inl _, Sum.inr _, Sum.inl _, _, h2 => h2.elim
    | Sum.inl _, Sum.inr _, Sum.inr _, _, _ => trivial
    | Sum.inr _, Sum.inl _, _, h1, _ => h1.elim
    | Sum.inr _, Sum.inr _, Sum.inl _, _, h2 => h2.elim⟩

/-- The sort key `lambda r: r[field]` mapped into the orderable classes.
The default branch is never consulted on a reachable sort (such elements
fail the comparability gate or sit in a singleton list). -/
def sortKey (field : String) (v : JVal) : Int ⊕ String :=
  match hKeyOf (fieldOf field v) with
  | some (.hi n) => Sum.inl n
  | some (.hs s) => Sum.inr s
  | _ => Sum.inl 0

def keyLe (field : String) (a b : JVal) : Prop :=
  sumLe (sortKey field a) (sortKey field b)

instance (field : String) : DecidableRel (keyLe field) := fun a b =>
  inferInstanceAs (Decidable (sumLe (sortKey field a) (sortKey field b)))

instance (field : String) : IsTotal JVal (keyLe field) :=
  ⟨fun a b => total_of sumLe (sortKey field a) (sortKey field b)⟩

instance (field : String) : IsTrans JVal (keyLe field) :=
  ⟨fun _ _ _ hab hbc =>
    IsTrans.trans (r := sumLe) _ _ _ hab hbc⟩

/-- Whether Python could compare these two elements' sort keys without a
`TypeError` (same orderable class, no `None`). -/
def keyComparable (field : String) (a b : JVal) : Bool :=
  match hKeyOf (fieldOf field a), hKeyOf (fieldOf field b) with
  | some (.hi _), some (.hi _) => true
  | some (.hs _), some (.hs _) => true
  | _, _ => false

def allComparable (field : String) (l : List JVal) : Bool :=
  l.all (fun a => l.all (fun b => keyComparable field a b))

/-- The validation loop of `_normalize_relationships` / `_normalize_columns`:
every element a dict containing `field`. -/
def checkObjs (label field : String) : Nat → List JVal → Except String Unit
  | _, [] => .ok ()
  | i, JVal.obj o :: rest =>
    if (o.find? (fun p => p.1 = field)).isSome then checkObjs label field (i + 1) rest
    else .error (label ++ " at index " ++ toString i ++ " lacks required " ++ field ++ " field")
  | i, _ :: _ => .error (label ++ " at index " ++ toString i ++ " is not a dict")

/-- The dedup loop's `key not in seen` membership tests hash each key; an
unhashable key (list/dict id) raises `TypeError` at its first test. -/
def hashKeys (field : String) : List JVal → Except String (List HKey)
  | [] => .ok []
  | x :: xs =>
    match hKeyOf (fieldOf field x) with
    | none => .error "unhashable type used as set element"
    | some k =>
      match hashKeys field xs with
      | .error e => .error e
      | .ok ks => .ok (k :: ks)

/-- First-occurrence dedup by `field`, Python's `seen` set loop.  The `none`
branch is unreachable after `hashKeys` succeeds. -/
def dedupKeyedAux (field : String) (seen : List HKey) : List JVal → List JVal
  | [] => []
  | x :: xs =>
    match hKeyOf (fieldOf field x) with
    | none => dedupKeyedAux field seen xs
    | some k =>
      if seen.contains k then dedupKeyedAux field seen xs
      else x :: dedupKeyedAux field (k :: seen) xs

def dedupKeyed (field : String) (l : List JVal) : List JVal := dedupKeyedAux field [] l

/-- `_normalize_relationships` (label "Relationship", field "id") and
`_normalize_columns` (label "Column", field "name"): validate, dedup by the
key field, sort by it; a comparison between unorderable keys only happens
when at least two distinct elements survive dedup. -/
def normObjList (label field : String) : JVal → Except String JVal
  | .arr l =>
    match checkObjs label field 0 l with
    | .error e => .error e
    | .ok _ =>
      match hashKeys field l with
      | .error e => .error e
      | .ok _ =>
        let u := dedupKeyed field l
        if u.length ≤ 1 || allComparable field u then
          .ok (.arr (List.insertionSort (keyLe field) u))
        else
          .error "unorderable sort keys"
  | _ => .error ("Expected list for " ++ label)

/-- The string-validation loop of `_normalize_tags`. -/
def tagStrings (field : Nat) : List JVal → Except String (List String)
  | [] => .ok []
  | JVal.s t :: rest =>
    match tagStrings (field + 1) rest with
    | .error e => .error e
    | .ok r => .ok (t :: r)
  | _ :: _ => .error ("Tag at index " ++ toString field ++ " is not a string")

/-- `_normalize_tags`: validate strings, dedup (`set`), stable-sort
case-insensitively. -/
def normTags : JVal → Except String JVal
  | .arr l =>
    match tagStrings 0 l with
    | .error e => .error e
    | .ok strs => .ok (.arr ((List.insertionSort tagLe (dedupFirst strs)).map JVal.s))
  | _ => .error "Expected list for tags"

/-- `value is None`. -/
def isNullJ : JVal → Bool
  | .null => true
  | _ => false

/-- The per-field body of `normalize_asset`'s loop. -/
def normFieldVal (f : String) (v : JVal) : Except String JVal :=
  if f = "tags" then normTags v
  else if f = "relationships" then normObjList "Relationship" "id" v
  else if f = "columns" then normObjList "Column" "name" v
  else .ok v

/-- `normalize_asset`'s loop over material fields; `fields` fixes the
iteration order of the Python set `MATERIAL_FIELDS` (unspecified but fixed
within a process; the result feeds a key-sorting serializer, and dict
equality ignores order, so any fixed order is a faithful model). -/
def normFields : List String → Record → Except String Record
  | [], _ => .ok []
  | f :: fs, r =>
    match pyGetJ r f with
    | none => normFields fs r
    | some v =>
      if isNullJ v then normFields fs r
      else
        match normFieldVal f v with
        | .error e => .error e
        | .ok nv =>
          match normFields fs r with
          | .error e => .error e
          | .ok rest => .ok ((f, nv) :: rest)

/-- `normalize_asset` on a dict argument (a non-dict raises `TypeError`,
which the `Record` type rules out). -/
def normalizeAsset (r : Record) : Except String Record :=
  normFields MATERIAL_FIELDS_LIST r

/-! ### Canonical JSON (`_to_canonical_json`) and SHA-256 (`compute_asset_hash`) -/

/-- The lowercase hex digit for a value below 16 (`0`-`9` then `a`-`f`). -/
def hexDigitCh (n : Nat) : Char :=
  if n < 10 then Char.ofNat (48 + n) else Char.ofNat (87 + n)

/-- `json.dumps` escaping of one character (`ensure_ascii=False`). -/
def escChar (c : Char) : List Char :=
  if c = '\x22' then ['\\', '\x22']
  else if c = '\\' then ['\\', '\\']
  else if c = '\n' then ['\\', 'n']
  else if c = '\t' then ['\\', 't']
  else if c = '\r' then ['\\', 'r']
  else if c = '\x08' then ['\\', 'b']
  else if c = '\x0c' then ['\\', 'f']
  else if c.toNat < 32 then
    ['\\', 'u', '0', '0', hexDigitCh (c.toNat / 16), hexDigitCh (c.toNat % 16)]
  else [c]

def jsonStr (s : String) : String :=
  String.mk ('\x22' :: ((s.data.map escChar).flatten ++ ['\x22']))

def joinComma : List String → String
  | [] => ""
  | [x] => x
  | x :: y :: rest => x ++ "," ++ joinComma (y :: rest)

/-- Key order of `sort_keys=True`. -/
def pairLe (a b : String × JVal) : Prop := strLeB a.1.data b.1.data = true

instance : DecidableRel pairLe := fun a b =>
  inferInstanceAs (Decidable (strLeB a.1.data b.1.data = true))

instance : IsTotal (String × JVal) pairLe := ⟨fun a b => strLeB_total a.1.data b.1.data⟩

instance : IsTrans (String × JVal) pairLe := ⟨fun _ _ _ hab hbc => strLeB_trans _ _ _ hab hbc⟩

/-- `json.dumps(obj, separators=(",", ":"), sort_keys=True, ensure_ascii=False)`. -/
def serJ : JVal → String
  | .s v => jsonStr v
  | .i n => toString n
  | .b c => if c then "true" else "false"
  | .null => "null"
  | .arr l => "[" ++ joinComma (l.attach.map (fun x => serJ x.1)) ++ "]"
  | .obj o => "\x7b" ++
      joinComma ((List.insertionSort pairLe o).attach.map
        (fun x => jsonStr x.1.1 ++ ":" ++ serJ x.1.2)) ++ "\x7d"
termination_by v => sizeOf v
decreasing_by
  · have h1 := List.sizeOf_lt_of_mem x.2
    simp only [JVal.arr.sizeOf_spec]
    omega
  · have h2 : x.1 ∈ o := by
      have := x.2
      rwa [List.mem_insertionSort] at this
    have h1 := List.sizeOf_lt_of_mem h2
    have h3 : sizeOf x.1.2 < sizeOf x.1 := by
      obtain ⟨a, b⟩ := x.1
      simp only [Prod.mk.sizeOf_spec]
      omega
    simp only [JVal.obj.sizeOf_spec]
    omega

def canonicalJson (r : Record) : String := serJ (.obj r)

/-- `str.encode("utf-8")` as a byte list. -/
def utf8Char (n : Nat) : List Nat :=
  if n < 128 then [n]
  else if n < 2048 then [192 + n / 64, 128 + n % 64]
  else if n < 65536 then [224 + n / 4096, 128 + n / 64 % 64, 128 + n % 64]
  else [240 + n / 262144, 128 + n / 4096 % 64, 128 + n / 64 % 64, 128 + n % 64]

def utf8Encode (s : String) : List Nat := (s.data.map (fun c => utf8Char c.toNat)).flatten

/-! SHA-256 over byte lists, 32-bit words as `Nat` mod `2 ^ 32`. -/

def w32 (n : Nat) : Nat := n % 4294967296

def rotr32 (x n : Nat) : Nat := w32 ((x >>> n) ||| (x <<< (32 - n)))

def chF (x y z : Nat) : Nat := (x &&& y) ^^^ ((x ^^^ 4294967295) &&& z)

def majF (x y z : Nat) : Nat := (x &&& y) ^^^ (x &&& z) ^^^ (y &&& z)

def bigSigma0 (x : Nat) : Nat := rotr32 x 2 ^^^ rotr32 x 13 ^^^ rotr32 x 22

def bigSigma1 (x : Nat) : Nat := rotr32 x 6 ^^^ rotr32 x 11 ^^^ rotr32 x 25

def smallSigma0 (x : Nat) : Nat := rotr32 x 7 ^^^ rotr32 x 18 ^^^ (x >>> 3)

def smallSigma1 (x : Nat) : Nat := rotr32 x 17 ^^^ rotr32 x 19 ^^^ (x >>> 10)

/-- The 64 SHA-256 round constants (FIPS 180-4), in decimal. -/
def shaK : List Nat :=
  [1116352408, 1899447441, 3049323471, 3921009573, 961987163, 1508970993,
   2453635748, 2870763221, 3624381080, 310598401, 607225278, 1426881987,
   1925078388, 2162078206, 2614888103, 3248222580, 3835390401, 4022224774,
   264347078, 604807628, 770255983, 1249150122, 1555081692, 1996064986,
   2554220882, 2821834349, 2952996808, 3210313671, 3336571891, 3584528711,
   113926993, 338241895, 666307205, 773529912, 1294757372, 1396182291,
   1695183700, 1986661051, 2177026350, 2456956037, 2730485921, 2820302411,
   3259730800, 3345764771, 3516065817, 3600352804, 4094571909, 275423344,
   430227734, 506948616, 659060556, 883997877, 958139571, 1322822218,
   1537002063, 1747873779, 1955562222, 2024104815, 2227730452, 2361852424,
   2428436474, 2756734187, 3204031479, 3329325298]

/-- The SHA-256 initial hash words (FIPS 180-4), in decimal. -/
def shaH0 : List Nat :=
  [1779033703, 3144134277, 1013904242, 2773480762,
   1359893119, 2600822924, 528734635, 1541459225]

/-- Merkle–Damgård padding: `0x80`, zeros to 56 mod 64, 8-byte big-endian bit length. -/
def shaPad (msg : List Nat) : List Nat :=
  let L := msg.length
  let r := (L + 1) % 64
  let zeros := if r ≤ 56 then 56 - r else 120 - r
  msg ++ [128] ++ List.replicate zeros 0 ++
    (List.range 8).map (fun i => ((8 * L) >>> (8 * (7 - i))) % 256)

def chunks64 (l : List Nat) : List (List Nat) :=
  if l = [] then [] else l.take 64 :: chunks64 (l.drop 64)
termination_by l.length
decreasing_by
  rename_i h
  have : 0 < l.length := List.length_pos.mpr h
  simp only [List.length_drop]
  omega

/-- Extend the 16 words to 64. -/
def msgSchedule (ws : List Nat) : List Nat :=
  (List.range 48).foldl
    (fun acc _ =>
      acc ++ [w32 (smallSigma1 (acc.getD (acc.length - 2) 0) + acc.getD (acc.length - 7) 0 +
        smallSigma0 (acc.getD (acc.length - 15) 0) + acc.getD (acc.length - 16) 0)])
    ws

structure Hash8 where
  a : Nat
  b : Nat
  c : Nat
  d : Nat
  e : Nat
  f : Nat
  g : Nat
  h : Nat

def compressStep (st : Hash8) (kw : Nat × Nat) : Hash8 :=
  let t1 := w32 (st.h + bigSigma1 st.e + chF st.e st.f st.g + kw.1 + kw.2)
  let t2 := w32 (bigSigma0 st.a + majF st.a st.b st.c)
  ⟨w32 (t1 + t2), st.a, st.b, st.c, w32 (st.d + t1), st.e, st.f, st.g⟩

/-- Add the compressed state back into the chaining words. -/
def addW (hs : List Nat) (st : Hash8) : List Nat :=
  [w32 (hs.getD 0 0 + st.a), w32 (hs.getD 1 0 + st.b), w32 (hs.getD 2 0 + st.c),
   w32 (hs.getD 3 0 + st.d), w32 (hs.getD 4 0 + st.e), w32 (hs.getD 5 0 + st.f),
   w32 (hs.getD 6 0 + st.g), w32 (hs.getD 7 0 + st.h)]

def processBlock (hs : List Nat) (block : List Nat) : List Nat :=
  let ws0 := (List.range 16).map (fun i =>
    block.getD (4 * i) 0 * 16777216 + block.getD (4 * i + 1) 0 * 65536 +
      block.getD (4 * i + 2) 0 * 256 + block.getD (4 * i + 3) 0)
  let ws := msgSchedule ws0
  let st0 : Hash8 :=
    ⟨hs.getD 0 0, hs.getD 1 0, hs.getD 2 0, hs.getD 3 0,
     hs.getD 4 0, hs.getD 5 0, hs.getD 6 0, hs.getD 7 0⟩
  let st := (shaK.zip ws).foldl compressStep st0
  addW hs st

def sha256Words (msg : List Nat) : List Nat := (chunks64 (shaPad msg)).foldl processBlock shaH0

/-- The digest as a single natural number (big-endian word concatenation). -/
def sha256Nat (msg : List Nat) : Nat :=
  (sha256Words msg).foldl (fun acc w => acc * 4294967296 + w) 0

/-- `hexdigest()`: 64 lowercase hex characters. -/
def toHex64 (n : Nat) : String :=
  String.mk ((List.range 64).map (fun i => hexDigitCh (n >>> (4 * (63 - i)) % 16)))

/-- `compute_asset_hash`: normalize, serialize canonically, hash, render hex. -/
def computeAssetHash (r : Record) : Except String String :=
  match normalizeAsset r with
  | .error e => .error e
  | .ok nr => .ok (toHex64 (sha256Nat (utf8Encode (canonicalJson nr))))

/-! ### Digest shape lemmas -/

theorem addW_len (hs : List Nat) (st : Hash8) : (addW hs st).length = 8 := rfl

theorem addW_bound (hs : List Nat) (st : Hash8) : ∀ w ∈ addW hs st, w < 4294967296 := by
  intro w hw
  simp only [addW, List.mem_cons, List.not_mem_nil, or_false] at hw
  rcases hw with h | h | h | h | h | h | h | h <;> subst h <;>
    exact Nat.mod_lt _ (by norm_num)

theorem processBlock_len (hs block : List Nat) : (processBlock hs block).length = 8 :=
  addW_len hs _

theorem processBlock_bound (hs block : List Nat) :
    ∀ w ∈ processBlock hs block, w < 4294967296 :=
  addW_bound hs _

theorem foldl_blocks_spec : ∀ (bs : List (List Nat)) (hs : List Nat), hs.length = 8 →
    (∀ w ∈ hs, w < 4294967296) →
    (bs.foldl processBlock hs).length = 8 ∧ ∀ w ∈ bs.foldl processBlock hs, w < 4294967296 := by
  intro bs
  induction bs with
  | nil => intro hs h1 h2; exact ⟨h1, h2⟩
  | cons b bs ih =>
    intro hs _ _
    exact ih (processBlock hs b) (processBlock_len hs b) (processBlock_bound hs b)

theorem sha256Words_spec (msg : List Nat) :
    (sha256Words msg).length = 8 ∧ ∀ w ∈ sha256Words msg, w < 4294967296 := by
  apply foldl_blocks_spec
  · rfl
  · intro w hw
    simp only [shaH0, List.mem_cons, List.not_mem_nil, or_false] at hw
    rcases hw with h | h | h | h | h | h | h | h <;> subst h <;> norm_num

theorem foldl_words_lt : ∀ (ws : List Nat) (acc : Nat), (∀ w ∈ ws, w < 4294967296) →
    List.foldl (fun a w => a * 4294967296 + w) acc ws < (acc + 1) * 4294967296 ^ ws.length := by
  intro ws
  induction ws with
  | nil => intro acc _; simp
  | cons w ws ih =>
    intro acc h
    have hw : w < 4294967296 := h w (by simp)
    have hstep := ih (acc * 4294967296 + w) (fun x hx => h x (by simp [hx]))
    calc List.foldl (fun a w => a * 4294967296 + w) (acc * 4294967296 + w) ws
        < (acc * 4294967296 + w + 1) * 4294967296 ^ ws.length := hstep
      _ ≤ ((acc + 1) * 4294967296) * 4294967296 ^ ws.length := by
          apply Nat.mul_le_mul_right
          omega
      _ = (acc + 1) * 4294967296 ^ (ws.length + 1) := by ring

theorem sha256Nat_lt (msg : List Nat) : sha256Nat msg < 2 ^ 256 := by
  obtain ⟨hlen, hbound⟩ := sha256Words_spec msg
  have h := foldl_words_lt (sha256Words msg) 0 hbound
  rw [hlen] at h
  calc sha256Nat msg < (0 + 1) * 4294967296 ^ 8 := h
    _ = 2 ^ 256 := by norm_num

def hexDigitChars : List Char :=
  ['0', '1', '2', '3', '4', '5', '6', '7', '8', '9'] ++ ['a', 'b', 'c', 'd', 'e', 'f']

theorem hexDigitCh_mem {n : Nat} (h : n < 16) : hexDigitCh n ∈ hexDigitChars := by
  interval_cases n <;> decide

theorem toHex64_length (n : Nat) : (toHex64 n).length = 64 := by
  simp [toHex64, String.length]

theorem toHex64_chars (n : Nat) : ∀ c ∈ (toHex64 n).data, c ∈ hexDigitChars := by
  intro c hc
  simp only [toHex64, List.mem_map] at hc
  obtain ⟨i, _, hi⟩ := hc
  exact hi ▸ hexDigitCh_mem (Nat.mod_lt _ (by norm_num))

/-! ### Hash determinism via lookup congruence -/

theorem normFields_congr : ∀ (fs : List String) (r1 r2 : Record),
    (∀ f ∈ fs, pyGetJ r1 f = pyGetJ r2 f) → normFields fs r1 = normFields fs r2 := by
  intro fs
  induction fs with
  | nil => intro r1 r2 _; rfl
  | cons f fs ih =>
    intro r1 r2 h
    have hf : pyGetJ r1 f = pyGetJ r2 f := h f (by simp)
    have hrest : normFields fs r1 = normFields fs r2 :=
      ih r1 r2 (fun g hg => h g (by simp [hg]))
    simp only [normFields, hf, hrest]

theorem pyGetJ_perm (a b : Record) (hp : a.Perm b) (hnd : (a.map Prod.fst).Nodup)
    (k : String) : pyGetJ a k = pyGetJ b k := by
  unfold pyGetJ
  cases hfa : a.find? (fun p => p.1 = k) with
  | none =>
    have hb : b.find? (fun p => decide (p.1 = k)) = none := by
      rw [List.find?_eq_none] at hfa ⊢
      intro x hx
      exact hfa x (hp.mem_iff.mpr hx)
    rw [hb]
  | some v =>
    have hvMem : v ∈ a := List.mem_of_find?_eq_some hfa
    have hvP := List.find?_some hfa
    cases hfb : b.find? (fun p => decide (p.1 = k)) with
    | none =>
      exfalso
      rw [List.find?_eq_none] at hfb
      exact hfb v (hp.mem_iff.mp hvMem) hvP
    | some w =>
      have hwMem : w ∈ b := List.mem_of_find?_eq_some hfb
      have hwP := List.find?_some hfb
      have hv1 : v.1 = k := by simpa using hvP
      have hw1 : w.1 = k := by simpa using hwP
      have hvw : v = w :=
        List.inj_on_of_nodup_map hnd hvMem (hp.mem_iff.mpr hwMem) (by rw [hv1, hw1])
      rw [hvw]

theorem normFields_cons_inv {f : String} {fs : List String} {r out : Record}
    (h : normFields (f :: fs) r = .ok out) :
    ((pyGetJ r f = none ∨ (∃ v, pyGetJ r f = some v ∧ isNullJ v = true))
        ∧ normFields fs r = .ok out)
    ∨ (∃ v nv rest, pyGetJ r f = some v ∧ isNullJ v = false ∧ normFieldVal f v = .ok nv
        ∧ normFields fs r = .ok rest ∧ out = (f, nv) :: rest) := by
  cases hv : pyGetJ r f with
  | none =>
    left
    simp only [normFields, hv] at h
    exact ⟨Or.inl rfl, h⟩
  | some v =>
    by_cases hn : isNullJ v = true
    · left
      simp only [normFields, hv, hn, if_true] at h
      exact ⟨Or.inr ⟨v, rfl, hn⟩, h⟩
    · right
      simp only [normFields, hv, hn, if_false] at h
      cases hnv : normFieldVal f v with
      | error e => rw [hnv] at h; exact absurd h (by simp)
      | ok nv =>
        rw [hnv] at h
        cases hrest : normFields fs r with
        | error e => rw [hrest] at h; exact absurd h (by simp)
        | ok rest =>
          rw [hrest] at h
          exact ⟨v, nv, rest, rfl, Bool.eq_false_iff.mpr hn, hnv, rfl,
            (Except.ok.inj h).symm⟩

theorem normFields_keys : ∀ (fs : List String) (r out : Record),
    normFields fs r = .ok out → ∀ p ∈ out, p.1 ∈ fs := by
  intro fs
  induction fs with
  | nil =>
    intro r out h p hp
    simp only [normFields] at h
    rw [← Except.ok.inj h] at hp
    simp at hp
  | cons f fs ih =>
    intro r out h p hp
    rcases normFields_cons_inv h with ⟨_, hrec⟩ | ⟨v, nv, rest, _, _, _, hrest, hout⟩
    · exact List.mem_cons_of_mem f (ih r out hrec p hp)
    · subst hout
      rcases List.mem_cons.mp hp with h1 | h1
      · rw [h1]; simp
      · exact List.mem_cons_of_mem f (ih r rest hrest p h1)

theorem pyGetJ_eq_none_of_keys {l : Record} {f : String} (h : ∀ p ∈ l, p.1 ≠ f) :
    pyGetJ l f = none := by
  unfold pyGetJ
  rw [List.find?_eq_none.mpr]
  · rfl
  · intro p hp
    simp [h p hp]

theorem pyGetJ_cons_ne {k g : String} {v : JVal} {t : Record} (h : k ≠ g) :
    pyGetJ ((k, v) :: t) g = pyGetJ t g := by
  simp [pyGetJ, List.find?, h]

theorem pyGetJ_cons_self {k : String} {v : JVal} {t : Record} :
    pyGetJ ((k, v) :: t) k = some v := by
  simp [pyGetJ, List.find?]

/-- A scalar material field (kept as-is by `normFieldVal`) survives
normalization with its exact value. -/
theorem pyGetJ_normFields_kept : ∀ (fs : List String) (r out : Record) (f : String) (v : JVal),
    normFields fs r = .ok out → f ∈ fs → pyGetJ r f = some v → isNullJ v = false →
    normFieldVal f v = .ok v → pyGetJ out f = some v := by
  intro fs
  induction fs with
  | nil => intro r out f v _ hf; simp at hf
  | cons g gs ih =>
    intro r out f v h hf hv hvn hkeep
    rcases normFields_cons_inv h with ⟨hskip, hrec⟩ | ⟨w, nw, rest, hw, hwn, hnw, hrest, hout⟩
    · rcases List.mem_cons.mp hf with h1 | h1
      · subst h1
        rcases hskip with h2 | ⟨u, h2, h3⟩
        · rw [hv] at h2; exact absurd h2 (by simp)
        · rw [hv] at h2
          rw [Option.some.inj h2] at hvn
          rw [h3] at hvn
          exact absurd hvn (by simp)
      · exact ih r out f v hrec h1 hv hvn hkeep
    · subst hout
      rcases List.mem_cons.mp hf with h1 | h1
      · subst h1
        rw [hv] at hw
        rw [← Option.some.inj hw] at hnw
        rw [hkeep] at hnw
        rw [Except.ok.inj hnw]
        exact pyGetJ_cons_self
      · by_cases hgf : g = f
        · subst hgf
          rw [hv] at hw
          rw [← Option.some.inj hw] at hnw
          rw [hkeep] at hnw
          rw [Except.ok.inj hnw]
          exact pyGetJ_cons_self
        · rw [pyGetJ_cons_ne hgf]
          exact ih r rest f v hrest h1 hv hvn hkeep

/-- C9 (amended core): the digest depends only on the material-field lookups. -/
theorem computeAssetHash_congr (a b : Record)
    (h : ∀ f ∈ MATERIAL_FIELDS_LIST, pyGetJ a f = pyGetJ b f) :
    computeAssetHash a = computeAssetHash b := by
  have heq : normalizeAsset a = normalizeAsset b :=
    normFields_congr MATERIAL_FIELDS_LIST a b h
  simp only [computeAssetHash, normalizeAsset] at heq ⊢
  rw [heq]

/-- C9: the determinism half of the claim, amended.  The digest is a function
of the material-field lookups alone (so key-insertion order with distinct keys
and volatile/unknown fields cannot affect it), and every produced digest is a
64-character lowercase-hex string; moreover a change to the scalar
`description` field always changes the normalized record that is hashed.  (The
other half of the original claim — that changing a material field always
changes the 256-bit digest itself — is refuted by `C9_counterexample`.) -/
theorem C9_amended_hash_determinism :
    (∀ a b : Record, (∀ f ∈ MATERIAL_FIELDS_LIST, pyGetJ a f = pyGetJ b f) →
        computeAssetHash a = computeAssetHash b)
    ∧ (∀ a b : Record, a.Perm b → (a.map Prod.fst).Nodup →
        computeAssetHash a = computeAssetHash b)
    ∧ (∀ (r : Record) (d : String), computeAssetHash r = Except.ok d →
        d.length = 64 ∧ ∀ c ∈ d.data, c ∈ hexDigitChars)
    ∧ (∀ (a b na nb : Record) (va vb : String),
        pyGetJ a "description" = some (JVal.s va) →
        pyGetJ b "description" = some (JVal.s vb) →
        va ≠ vb → normalizeAsset a = Except.ok na → normalizeAsset b = Except.ok nb →
        na ≠ nb) := by
  refine ⟨computeAssetHash_congr, ?_, ?_, ?_⟩
  · intro a b hp hnd
    exact computeAssetHash_congr a b (fun f _ => pyGetJ_perm a b hp hnd f)
  · intro r d h
    cases hn : normalizeAsset r with
    | error e => rw [computeAssetHash, hn] at h; exact absurd h (by simp)
    | ok nr =>
      rw [computeAssetHash, hn] at h
      rw [← Except.ok.inj h]
      exact ⟨toHex64_length _, toHex64_chars _⟩
  · intro a b na nb va vb ha hb hne hna hnb
    have hmem : "description" ∈ MATERIAL_FIELDS_LIST := by decide
    have h1 : pyGetJ na "description" = some (JVal.s va) :=
      pyGetJ_normFields_kept MATERIAL_FIELDS_LIST a na "description" (JVal.s va)
        hna hmem ha rfl rfl
    have h2 : pyGetJ nb "description" = some (JVal.s vb) :=
      pyGetJ_normFields_kept MATERIAL_FIELDS_LIST b nb "description" (JVal.s vb)
        hnb hmem hb rfl rfl
    intro hcontra
    rw [hcontra, h2] at h1
    have h3 := Option.some.inj h1
    have h4 : vb = va := by injection h3
    exact hne h4.symm

/-- C9 witness: records differing only in key order and volatile fields
receive the same digest. -/
theorem C9_witness :
    computeAssetHash [("id", JVal.s "x"), ("lastUpdated", JVal.s "t1")] =
      computeAssetHash [("ingestionTime", JVal.s "t2"), ("id", JVal.s "x")] :=
  C9_amended_hash_determinism.1 _ _ (by intro f hf; fin_cases hf <;> rfl)

def mkRecC9 (n : Nat) : Record := [("description", JVal.s (String.mk (List.replicate n 'a')))]

/-- C9 counterexample: by pigeonhole on the 2^256 possible digests, two records
that agree on every material field except `description` (where they differ)
still collide, refuting "changing any material field changes the digest". -/
theorem C9_counterexample :
    ∃ a b : Record,
      pyGetJ a "description" ≠ pyGetJ b "description"
      ∧ (∀ f ∈ MATERIAL_FIELDS_LIST, f ≠ "description" → pyGetJ a f = pyGetJ b f)
      ∧ computeAssetHash a = computeAssetHash b := by
  have hlt : ∀ k : Nat, sha256Nat (utf8Encode (canonicalJson (mkRecC9 k))) < 2 ^ 256 :=
    fun _ => sha256Nat_lt _
  obtain ⟨m, n, hmn, heq⟩ := Finite.exists_ne_map_eq_of_infinite
    (fun k : ℕ => (⟨sha256Nat (utf8Encode (canonicalJson (mkRecC9 k))), hlt k⟩ : Fin (2 ^ 256)))
  refine ⟨mkRecC9 m, mkRecC9 n, ?_, ?_, ?_⟩
  · intro hcontra
    have h1 : pyGetJ (mkRecC9 m) "description" =
        some (JVal.s (String.mk (List.replicate m 'a'))) := rfl
    have h2 : pyGetJ (mkRecC9 n) "description" =
        some (JVal.s (String.mk (List.replicate n 'a'))) := rfl
    rw [h1, h2] at hcontra
    have h3 := Option.some.inj hcontra
    have h4 : String.mk (List.replicate m 'a') = String.mk (List.replicate n 'a') := by
      injection h3
    have h5 : List.replicate m 'a' = List.replicate n 'a' := congrArg String.data h4
    have h6 : m = n := by
      have := congrArg List.length h5
      simpa using this
    exact hmn h6
  · intro f _ hf
    have h1 : pyGetJ (mkRecC9 m) f = none := by
      apply pyGetJ_eq_none_of_keys
      intro p hp
      simp only [mkRecC9, List.mem_singleton] at hp
      rw [hp]
      exact fun hc => hf hc.symm
    have h2 : pyGetJ (mkRecC9 n) f = none := by
      apply pyGetJ_eq_none_of_keys
      intro p hp
      simp only [mkRecC9, List.mem_singleton] at hp
      rw [hp]
      exact fun hc => hf hc.symm
    rw [h1, h2]
  · have hchash : ∀ k : Nat, computeAssetHash (mkRecC9 k) =
        Except.ok (toHex64 (sha256Nat (utf8Encode (canonicalJson (mkRecC9 k))))) :=
      fun _ => rfl
    rw [hchash m, hchash n]
    exact congrArg (fun z => Except.ok (toHex64 z)) (congrArg Fin.val heq)

/-! ### Idempotence of the normalizer -/

theorem tagStrings_map : ∀ (l : List String) (i : Nat), tagStrings i (l.map JVal.s) = .ok l := by
  intro l
  induction l with
  | nil => intro i; rfl
  | cons x xs ih => intro i; simp only [List.map_cons, tagStrings, ih]

theorem normTags_ok_shape {v nv : JVal} (h : normTags v = .ok nv) :
    ∃ strs, nv = .arr ((List.insertionSort tagLe (dedupFirst strs)).map JVal.s) := by
  cases v with
  | arr l =>
    cases hts : tagStrings 0 l with
    | error e =>
      simp only [normTags] at h
      rw [hts] at h
      exact absurd h (by simp)
    | ok strs =>
      simp only [normTags] at h
      rw [hts] at h
      exact ⟨strs, (Except.ok.inj h).symm⟩
  | s a => exact absurd h (by simp [normTags])
  | i a => exact absurd h (by simp [normTags])
  | b a => exact absurd h (by simp [normTags])
  | null => exact absurd h (by simp [normTags])
  | obj o => exact absurd h (by simp [normTags])

theorem normTags_idem {v nv : JVal} (h : normTags v = .ok nv) : normTags nv = .ok nv := by
  obtain ⟨strs, rfl⟩ := normTags_ok_shape h
  have hnd : (List.insertionSort tagLe (dedupFirst strs)).Nodup :=
    (List.perm_insertionSort tagLe (dedupFirst strs)).nodup_iff.mpr (dedupFirst_nodup strs)
  simp only [normTags, tagStrings_map]
  rw [dedupFirst_eq_self hnd]
  rw [List.Sorted.insertionSort_eq (List.sorted_insertionSort tagLe (dedupFirst strs))]

/-- `isinstance(x, dict) and field in x`. -/
def validObj (field : String) : JVal → Bool
  | .obj o => (o.find? (fun p => p.1 = field)).isSome
  | _ => false

theorem checkObjs_ok_iff (label field : String) : ∀ (l : List JVal) (i : Nat),
    checkObjs label field i l = .ok () ↔ ∀ x ∈ l, validObj field x = true := by
  intro l
  induction l with
  | nil => intro i; simp [checkObjs]
  | cons x xs ih =>
    intro i
    cases x with
    | obj o =>
      by_cases hf : (o.find? (fun p => p.1 = field)).isSome = true
      · rw [show checkObjs label field i (JVal.obj o :: xs) = checkObjs label field (i + 1) xs
          from by simp [checkObjs, hf]]
        constructor
        · intro h y hy
          rcases List.mem_cons.mp hy with h1 | h1
          · rw [h1]; simpa [validObj] using hf
          · exact (ih (i + 1)).mp h y h1
        · intro h
          exact (ih (i + 1)).mpr (fun y hy => h y (by simp [hy]))
      · constructor
        · intro h
          simp only [checkObjs, hf, if_false] at h
          exact absurd h (by simp)
        · intro h
          exfalso
          have := h (JVal.obj o) (by simp)
          simp only [validObj] at this
          exact hf this
    | s a =>
      constructor
      · intro h; simp only [checkObjs] at h; exact absurd h (by simp)
      · intro h
        have := h (JVal.s a) (by simp)
        simp [validObj] at this
    | i a =>
      constructor
      · intro h; simp only [checkObjs] at h; exact absurd h (by simp)
      · intro h
        have := h (JVal.i a) (by simp)
        simp [validObj] at this
    | b a =>
      constructor
      · intro h; simp only [checkObjs] at h; exact absurd h (by simp)
      · intro h
        have := h (JVal.b a) (by simp)
        simp [validObj] at this
    | null =>
      constructor
      · intro h; simp only [checkObjs] at h; exact absurd h (by simp)
      · intro h
        have := h JVal.null (by simp)
        simp [validObj] at this
    | arr a =>
      constructor
      · intro h; simp only [checkObjs] at h; exact absurd h (by simp)
      · intro h
        have := h (JVal.arr a) (by simp)
        simp [validObj] at this

theorem hashKeys_ok_forall (field : String) : ∀ (l : List JVal) (ks : List HKey),
    hashKeys field l = .ok ks → ∀ x ∈ l, (hKeyOf (fieldOf field x)).isSome = true := by
  intro l
  induction l with
  | nil => intro ks _ x hx; simp at hx
  | cons y ys ih =>
    intro ks h x hx
    cases hk : hKeyOf (fieldOf field y) with
    | none =>
      simp only [hashKeys, hk] at h
      exact absurd h (by simp)
    | some k =>
      rcases List.mem_cons.mp hx with h1 | h1
      · rw [h1, hk]; rfl
      · simp only [hashKeys, hk] at h
        cases hrec : hashKeys field ys with
        | error e => rw [hrec] at h; exact absurd h (by simp)
        | ok ks2 => exact ih ks2 hrec x h1

theorem hashKeys_ok_of_forall (field : String) : ∀ (l : List JVal),
    (∀ x ∈ l, (hKeyOf (fieldOf field x)).isSome = true) →
    ∃ ks, hashKeys field l = .ok ks := by
  intro l
  induction l with
  | nil => intro _; exact ⟨[], rfl⟩
  | cons y ys ih =>
    intro h
    have hy := h y (by simp)
    cases hk : hKeyOf (fieldOf field y) with
    | none => rw [hk] at hy; simp at hy
    | some k =>
      obtain ⟨ks, hks⟩ := ih (fun x hx => h x (by simp [hx]))
      exact ⟨k :: ks, by simp only [hashKeys, hk, hks]⟩

theorem dedupKeyedAux_props (field : String) : ∀ (l : List JVal) (seen : List HKey),
    (∀ x ∈ dedupKeyedAux field seen l,
      x ∈ l ∧ ∃ k, hKeyOf (fieldOf field x) = some k ∧ k ∉ seen)
    ∧ (dedupKeyedAux field seen l).Pairwise
        (fun a b => hKeyOf (fieldOf field a) ≠ hKeyOf (fieldOf field b)) := by
  intro l
  induction l with
  | nil => intro seen; exact ⟨by simp [dedupKeyedAux], by simp [dedupKeyedAux]⟩
  | cons y ys ih =>
    intro seen
    cases hk : hKeyOf (fieldOf field y) with
    | none =>
      have h := ih seen
      rw [show dedupKeyedAux field seen (y :: ys) = dedupKeyedAux field seen ys from by
        simp [dedupKeyedAux, hk]]
      exact ⟨fun x hx => ⟨by simp [(h.1 x hx).1], (h.1 x hx).2⟩, h.2⟩
    | some k =>
      by_cases hc : seen.contains k = true
      · have hcm : k ∈ seen := (contains_iff_memS _ _).mp hc
        have h := ih seen
        rw [show dedupKeyedAux field seen (y :: ys) = dedupKeyedAux field seen ys from by
          simp [dedupKeyedAux, hk, hcm]]
        exact ⟨fun x hx => ⟨by simp [(h.1 x hx).1], (h.1 x hx).2⟩, h.2⟩
      · have hcm : k ∉ seen := fun hm => hc ((contains_iff_memS _ _).mpr hm)
        have h := ih (k :: seen)
        rw [show dedupKeyedAux field seen (y :: ys) =
            y :: dedupKeyedAux field (k :: seen) ys from by
          simp [dedupKeyedAux, hk, hcm]]
        constructor
        · intro x hx
          rcases List.mem_cons.mp hx with h1 | h1
          · subst h1
            exact ⟨by simp, k, hk, hcm⟩
          · obtain ⟨hmem, k2, hk2, hk2s⟩ := h.1 x h1
            exact ⟨by simp [hmem], k2, hk2, fun hm => hk2s (by simp [hm])⟩
        · rw [List.pairwise_cons]
          refine ⟨?_, h.2⟩
          intro b hb
          obtain ⟨_, k2, hk2, hk2s⟩ := h.1 b hb
          rw [hk, hk2]
          intro hcontra
          have hkk : k = k2 := Option.some.inj hcontra
          exact hk2s (by simp [← hkk])

theorem dedupKeyedAux_eq_self (field : String) : ∀ (l : List JVal) (seen : List HKey),
    (∀ x ∈ l, ∃ k, hKeyOf (fieldOf field x) = some k ∧ k ∉ seen) →
    l.Pairwise (fun a b => hKeyOf (fieldOf field a) ≠ hKeyOf (fieldOf field b)) →
    dedupKeyedAux field seen l = l := by
  intro l
  induction l with
  | nil => intro seen _ _; rfl
  | cons y ys ih =>
    intro seen hall hpw
    obtain ⟨k, hk, hks⟩ := hall y (by simp)
    rw [List.pairwise_cons] at hpw
    rw [show dedupKeyedAux field seen (y :: ys) = y :: dedupKeyedAux field (k :: seen) ys from by
      simp [dedupKeyedAux, hk, hks]]
    congr 1
    apply ih
    · intro x hx
      obtain ⟨k2, hk2, hk2s⟩ := hall x (by simp [hx])
      refine ⟨k2, hk2, ?_⟩
      intro hm
      rcases List.mem_cons.mp hm with h1 | h1
      · exact hpw.1 x hx (by rw [hk, hk2, h1])
      · exact hk2s h1
    · exact hpw.2

theorem allComparable_iff (field : String) (l : List JVal) :
    allComparable field l = true ↔ ∀ a ∈ l, ∀ b ∈ l, keyComparable field a b = true := by
  simp [allComparable, List.all_eq_true]

theorem allComparable_of_perm {field : String} {l1 l2 : List JVal} (hp : l1.Perm l2)
    (h : allComparable field l1 = true) : allComparable field l2 = true := by
  rw [allComparable_iff] at h ⊢
  intro a ha b hb
  exact h a (hp.mem_iff.mpr ha) b (hp.mem_iff.mpr hb)

theorem normObjList_ok_inv {label field : String} {v nv : JVal}
    (h : normObjList label field v = .ok nv) :
    ∃ l, v = .arr l
      ∧ checkObjs label field 0 l = .ok ()
      ∧ (∃ ks, hashKeys field l = .ok ks)
      ∧ (decide ((dedupKeyed field l).length ≤ 1)
          || allComparable field (dedupKeyed field l)) = true
      ∧ nv = .arr (List.insertionSort (keyLe field) (dedupKeyed field l)) := by
  cases v with
  | arr l =>
    cases hco : checkObjs label field 0 l with
    | error e =>
      simp only [normObjList] at h
      rw [hco] at h
      exact absurd h (by simp)
    | ok u =>
      cases u
      cases hhk : hashKeys field l with
      | error e =>
        simp only [normObjList] at h
        rw [hco, hhk] at h
        exact absurd h (by simp)
      | ok ks =>
        simp only [normObjList] at h
        rw [hco, hhk] at h
        by_cases hg : (decide ((dedupKeyed field l).length ≤ 1)
            || allComparable field (dedupKeyed field l)) = true
        · rw [if_pos hg] at h
          exact ⟨l, rfl, hco, ⟨ks, hhk⟩, hg, (Except.ok.inj h).symm⟩
        · rw [if_neg hg] at h
          exact absurd h (by simp)
  | s a => exact absurd h (by simp [normObjList])
  | i a => exact absurd h (by simp [normObjList])
  | b a => exact absurd h (by simp [normObjList])
  | null => exact absurd h (by simp [normObjList])
  | obj o => exact absurd h (by simp [normObjList])

theorem normObjList_idem {label field : String} {v nv : JVal}
    (h : normObjList label field v = .ok nv) : normObjList label field nv = .ok nv := by
  obtain ⟨l, rfl, hco, ⟨ks, hhk⟩, hg, rfl⟩ := normObjList_ok_inv h
  have hperm : (List.insertionSort (keyLe field) (dedupKeyed field l)).Perm
      (dedupKeyed field l) := List.perm_insertionSort _ _
  have hprops := dedupKeyedAux_props field l []
  have hsub2 : ∀ x ∈ List.insertionSort (keyLe field) (dedupKeyed field l), x ∈ l :=
    fun x hx => (hprops.1 x (hperm.mem_iff.mp hx)).1
  have hvalid : ∀ x ∈ l, validObj field x = true := (checkObjs_ok_iff label field l 0).mp hco
  have hco2 : checkObjs label field 0
      (List.insertionSort (keyLe field) (dedupKeyed field l)) = .ok () :=
    (checkObjs_ok_iff label field _ 0).mpr (fun x hx => hvalid x (hsub2 x hx))
  have hhall : ∀ x ∈ l, (hKeyOf (fieldOf field x)).isSome = true :=
    hashKeys_ok_forall field l ks hhk
  obtain ⟨ks2, hks2⟩ :=
    hashKeys_ok_of_forall field (List.insertionSort (keyLe field) (dedupKeyed field l))
      (fun x hx => hhall x (hsub2 x hx))
  have hpw2 : (List.insertionSort (keyLe field) (dedupKeyed field l)).Pairwise
      (fun a b => hKeyOf (fieldOf field a) ≠ hKeyOf (fieldOf field b)) :=
    (hperm.pairwise_iff (fun hab => Ne.symm hab)).mpr hprops.2
  have hdedup2 : dedupKeyed field (List.insertionSort (keyLe field) (dedupKeyed field l)) =
      List.insertionSort (keyLe field) (dedupKeyed field l) := by
    apply dedupKeyedAux_eq_self
    · intro x hx
      obtain ⟨_, k, hk, _⟩ := hprops.1 x (hperm.mem_iff.mp hx)
      exact ⟨k, hk, by simp⟩
    · exact hpw2
  have hlen := hperm.length_eq
  have hg2 : (decide ((dedupKeyed field
        (List.insertionSort (keyLe field) (dedupKeyed field l))).length ≤ 1)
      || allComparable field (dedupKeyed field
        (List.insertionSort (keyLe field) (dedupKeyed field l)))) = true := by
    rw [hdedup2]
    rcases Bool.or_eq_true_iff.mp hg with h1 | h1
    · apply Bool.or_eq_true_iff.mpr
      left
      rw [decide_eq_true_eq] at h1 ⊢
      omega
    · exact Bool.or_eq_true_iff.mpr (Or.inr (allComparable_of_perm hperm.symm h1))
  have hsorted2 : List.insertionSort (keyLe field)
      (List.insertionSort (keyLe field) (dedupKeyed field l)) =
      List.insertionSort (keyLe field) (dedupKeyed field l) :=
    List.Sorted.insertionSort_eq (List.sorted_insertionSort (keyLe field) (dedupKeyed field l))
  simp only [normObjList, hco2, hks2]
  rw [if_pos hg2, hdedup2, hsorted2]

theorem normFieldVal_idem {f : String} {v nv : JVal} (hvn : isNullJ v = false)
    (h : normFieldVal f v = .ok nv) : normFieldVal f nv = .ok nv ∧ isNullJ nv = false := by
  unfold normFieldVal at h ⊢
  by_cases h1 : f = "tags"
  · rw [if_pos h1] at h
    obtain ⟨strs, hshape⟩ := normTags_ok_shape h
    refine ⟨by rw [if_pos h1]; exact normTags_idem h, ?_⟩
    rw [hshape]
    rfl
  · by_cases h2 : f = "relationships"
    · rw [if_neg h1, if_pos h2] at h
      obtain ⟨l, _, _, _, _, hshape⟩ := normObjList_ok_inv h
      refine ⟨by rw [if_neg h1, if_pos h2]; exact normObjList_idem h, ?_⟩
      rw [hshape]
      rfl
    · by_cases h3 : f = "columns"
      · rw [if_neg h1, if_neg h2, if_pos h3] at h
        obtain ⟨l, _, _, _, _, hshape⟩ := normObjList_ok_inv h
        refine ⟨by rw [if_neg h1, if_neg h2, if_pos h3]; exact normObjList_idem h, ?_⟩
        rw [hshape]
        rfl
      · rw [if_neg h1, if_neg h2, if_neg h3] at h
        rw [← Except.ok.inj h]
        exact ⟨by rw [if_neg h1, if_neg h2, if_neg h3], hvn⟩

theorem normFields_idem : ∀ (fs : List String) (r out : Record), fs.Nodup →
    normFields fs r = .ok out → normFields fs out = .ok out := by
  intro fs
  induction fs with
  | nil =>
    intro r out _ h
    simp only [normFields] at h ⊢
    rw [Except.ok.inj h]
  | cons f fs ih =>
    intro r out hnd h
    rw [List.nodup_cons] at hnd
    rcases normFields_cons_inv h with ⟨_, hrec⟩ | ⟨v, nv, rest, hv, hvn, hnv, hrest, hout⟩
    · have hkeys := normFields_keys fs r out hrec
      have hnone : pyGetJ out f = none :=
        pyGetJ_eq_none_of_keys (fun p hp hc => hnd.1 (hc ▸ hkeys p hp))
      rw [show normFields (f :: fs) out = normFields fs out from by
        simp only [normFields, hnone]]
      exact ih r out hnd.2 hrec
    · subst hout
      obtain ⟨hkeep, hnvn⟩ := normFieldVal_idem hvn hnv
      have hgetf : pyGetJ ((f, nv) :: rest) f = some nv := pyGetJ_cons_self
      have hcongr : normFields fs ((f, nv) :: rest) = normFields fs rest :=
        normFields_congr fs _ rest
          (fun g hg => pyGetJ_cons_ne (fun hc => hnd.1 (hc ▸ hg)))
      have hrest2 : normFields fs rest = .ok rest := ih r rest hnd.2 hrest
      simp only [normFields, hgetf, hnvn, Bool.false_eq_true, if_false, hkeep, hcongr, hrest2]

/-- C10: `normalize_asset` is idempotent: a record it accepts and returns is
returned unchanged (field for field, list element order included) when
normalized again. -/
theorem C10_normalize_idempotent (r out : Record) (h : normalizeAsset r = Except.ok out) :
    normalizeAsset out = Except.ok out :=
  normFields_idem MATERIAL_FIELDS_LIST r out (by decide) h

/-- C10 witness: a concrete asset with mixed-case duplicate tags normalizes to
the case-insensitively sorted dedup, and renormalizing that output is the
identity. -/
theorem C10_witness :
    normalizeAsset [("id", JVal.s "x"),
        ("tags", JVal.arr [JVal.s "b", JVal.s "a", JVal.s "B", JVal.s "a"])] =
      Except.ok [("id", JVal.s "x"), ("tags", JVal.arr [JVal.s "a", JVal.s "b", JVal.s "B"])]
    ∧ normalizeAsset [("id", JVal.s "x"),
        ("tags", JVal.arr [JVal.s "a", JVal.s "b", JVal.s "B"])] =
      Except.ok [("id", JVal.s "x"), ("tags", JVal.arr [JVal.s "a", JVal.s "b", JVal.s "B"])] :=
  ⟨rfl,
    C10_normalize_idempotent
      [("id", JVal.s "x"), ("tags", JVal.arr [JVal.s "b", JVal.s "a", JVal.s "B", JVal.s "a"])]
      [("id", JVal.s "x"), ("tags", JVal.arr [JVal.s "a", JVal.s "b", JVal.s "B"])] rfl⟩

end Enricher
